import Mathlib

/-!
Verification of the content pipeline in lib/api.ts (a static-site content
loader: page lookup, sitemap normalization, path collection, prev/next
linking, date-ordered collections).

The embedding is a direct translation of the TypeScript source.  Strings are
manipulated through their character lists; the Node path helpers (posix
flavour, the platform the site builds on) are modelled by executable
functions below.  Filesystem reads are modelled by an association list from
full file path to parsed file contents; front-matter parsing (gray-matter)
and Markdown rendering are external collaborators, so a file is represented
directly by its parsed form, and the date field holds the numeric timestamp
that Date.parse (an external collaborator) would return for it.
-/

namespace Site

/-! ## Character-list helpers (JS string primitives) -/

/-- JS String.prototype.split("/"): split a character list at every slash.
Always returns at least one (possibly empty) segment. -/
def splitSegs : List Char → List (List Char)
  | [] => [[]]
  | c :: rest =>
    if c = '/' then [] :: splitSegs rest
    else
      match splitSegs rest with
      | s :: ss => (c :: s) :: ss
      | [] => [[c]]

/-- Rejoin segments with slashes (inverse of splitSegs). -/
def joinSegs : List (List Char) → List Char
  | [] => []
  | [a] => a
  | a :: b :: rest => a ++ '/' :: joinSegs (b :: rest)

/-- Does the list start with the given pattern (first argument)? -/
def hasPrefixL : List Char → List Char → Bool
  | [], _ => true
  | _ :: _, [] => false
  | a :: as, b :: bs => a = b && hasPrefixL as bs

/-- Does the pattern occur anywhere inside the list (JS String.includes)? -/
def hasInfixL (sub l : List Char) : Bool :=
  (List.range (l.length + 1)).any (fun i => hasPrefixL sub (l.drop i))

/-- JS s.startsWith(pre). -/
def strStartsWith (s pre : String) : Bool := hasPrefixL pre.data s.data

/-- JS s.includes(sub). -/
def strContains (s sub : String) : Bool := hasInfixL sub.data s.data

/-- JS s.substring(n) (our domain is ASCII, so UTF-16 units are characters). -/
def strDropChars (s : String) (n : Nat) : String := String.mk (s.data.drop n)

/-- JS s.replace(backslash-regex-global, "/"): turn every backslash into a slash. -/
def replaceBackslashes (s : String) : String :=
  String.mk (s.data.map (fun c => if c = '\\' then '/' else c))

/-- JS s.split("/") at string level. -/
def strSplitSlash (s : String) : List String := (splitSegs s.data).map String.mk

/-- Remove the first occurrence of pat from a character list (scan left to
right, drop the match when it starts here). -/
def removeFirstL (pat : List Char) : List Char → List Char
  | [] => []
  | c :: rest =>
    if hasPrefixL pat (c :: rest) then (c :: rest).drop pat.length
    else c :: removeFirstL pat rest

/-- JS s.replace(first occurrence of pat, ""): remove the first occurrence. -/
def removeFirst (s pat : String) : String := String.mk (removeFirstL pat.data s.data)

/-- JS s.replace(end-anchored ".md" regex, ""). -/
def stripMdSuffix (s : String) : String :=
  if hasPrefixL ['d', 'm', '.'] s.data.reverse then String.mk (s.data.take (s.data.length - 3))
  else s

/-! ## Node path model (posix flavour) -/

/-- Is the path absolute (starts with a slash)? -/
def isAbsL : List Char → Bool
  | [] => false
  | c :: _ => decide (c = '/')

/-- Does the path end with a slash? -/
def endsSlashL (l : List Char) : Bool := decide (l.getLast? = some '/')

/-- Core of path normalization: process segments left to right, dropping empty
and "." segments and resolving ".." against the accumulator (which is kept
reversed).  For absolute paths a ".." at the root disappears; for relative
paths leading ".."s are kept. -/
def normSegsAux (abs : Bool) : List (List Char) → List (List Char) → List (List Char)
  | acc, [] => acc
  | acc, s :: rest =>
    if s = [] ∨ s = ['.'] then normSegsAux abs acc rest
    else if s = ['.', '.'] then
      match acc with
      | [] => if abs then normSegsAux abs [] rest else normSegsAux abs [['.', '.']] rest
      | top :: accRest =>
        if top = ['.', '.'] then normSegsAux abs (s :: top :: accRest) rest
        else normSegsAux abs accRest rest
    else normSegsAux abs (s :: acc) rest

/-- Node path.posix.normalize on character lists. -/
def normPath (l : List Char) : List Char :=
  let abs := isAbsL l
  let trail := endsSlashL l
  let segs := (normSegsAux abs [] (splitSegs l)).reverse
  let core := joinSegs segs
  if core = [] then (if abs then ['/'] else if trail then ['.', '/'] else ['.'])
  else (if abs then '/' :: core else core) ++ (if trail then ['/'] else [])

/-- Node path.posix.normalize. -/
def posixNormalize (s : String) : String := String.mk (normPath s.data)

/-- Node path.posix.isAbsolute. -/
def posixIsAbsolute (s : String) : Bool := isAbsL s.data

/-- Node path.posix.join of two parts: empty parts are dropped, the rest are
joined with a slash and the result normalized (an empty join yields "."). -/
def posixJoin (a b : String) : String :=
  if a = "" && b = "" then "."
  else if a = "" then posixNormalize b
  else if b = "" then posixNormalize a
  else posixNormalize (a ++ "/" ++ b)

/-- Length of the common segment prefix of two segment lists. -/
def countCommonSegs : List (List Char) → List (List Char) → Nat
  | a :: as, b :: bs => if a = b then 1 + countCommonSegs as bs else 0
  | _, _ => 0

/-- Node path.posix.relative for absolute arguments: resolve both, strip the
common prefix, go up for what remains of the source and down into the target. -/
def posixRelative (f t : String) : String :=
  let fsegs := (normSegsAux true [] (splitSegs f.data)).reverse
  let tsegs := (normSegsAux true [] (splitSegs t.data)).reverse
  let common := countCommonSegs fsegs tsegs
  let ups := List.replicate (fsegs.length - common) ['.', '.']
  String.mk (joinSegs (ups ++ tsegs.drop common))

/-! ## Data model -/

/-- Front matter of a Markdown file, as parsed by the gray-matter
collaborator.  The date field holds the numeric timestamp that the external
Date.parse collaborator yields for the file's date entry. -/
structure FrontMatter where
  title : Option String
  menu : Option String
  description : Option String
  date : Int
deriving DecidableEq, Repr

/-- A content file: parsed front matter plus raw Markdown body. -/
structure FileData where
  data : FrontMatter
  content : String
deriving DecidableEq, Repr

/-- The content filesystem: full path to parsed file, in enumeration order. -/
abbrev FS := List (String × FileData)

/-- A prev/next navigation link. -/
structure Link where
  title : Option String
  href : String
deriving DecidableEq, Repr

/-- The record returned by loadPage.  The prev and next properties are absent
on a freshly loaded page and attached later by setPrevNext. -/
structure PageRecord where
  key : String
  href : String
  title : Option String
  menuTitle : Option String
  mdPath : String
  data : FrontMatter
  body : String
  description : Option String
  prev : Option Link
  next : Option Link
deriving DecidableEq, Repr

/-- The page summary kept in the menu (loadMenuPage keeps key, href, title
and data only; external-link stubs have no data).  The menuTitle property is
never set on these objects, but setPrevNext reads it dynamically, so it is
carried as an always-optional field. -/
structure MenuPage where
  key : String
  href : String
  title : Option String
  menuTitle : Option String
  data : Option FrontMatter
deriving DecidableEq, Repr

/-- A node of the normalized menu tree.  getProps's top-level wrapper entry
has key and title but no page; entries produced by normalize have a page and
possibly children.  An absent nested property is modelled by the empty list
(iterating an empty list is a no-op, like skipping an absent property). -/
inductive MenuEntry : Type where
  | mk (key : Option String) (title : Option String) (page : Option MenuPage)
      (nested : List MenuEntry)

/-- The page of a menu entry. -/
def MenuEntry.page : MenuEntry → Option MenuPage
  | .mk _ _ p _ => p

/-- The children of a menu entry. -/
def MenuEntry.nested : MenuEntry → List MenuEntry
  | .mk _ _ _ n => n

/-- A sitemap value: an external link (href), a plain page, a section whose
nested value is an ordered list of child keys, or deeper nesting whose nested
value is a further mapping. -/
inductive SEntry : Type where
  | link (href : String) (title : Option String)
  | leaf (title : Option String)
  | sec (title : Option String) (children : List String)
  | group (title : Option String) (sub : List (String × SEntry))

/-- The child-key list of a list-shaped section (empty for other shapes). -/
def SEntry.childKeys : SEntry → List String
  | .sec _ ks => ks
  | _ => []

/-- The title property of a sitemap value. -/
def SEntry.titleOf : SEntry → Option String
  | .link _ t => t
  | .leaf t => t
  | .sec t _ => t
  | .group t _ => t

/-- JS truthiness of v.href (absent and the empty string are falsy). -/
def SEntry.hrefTruthy : SEntry → Bool
  | .link h _ => decide (h ≠ "")
  | _ => false

/-- JS a || b on optional strings: undefined and the empty string are falsy. -/
def jsOrStr (a b : Option String) : Option String :=
  match a with
  | some s => if s = "" then b else some s
  | none => b

/-- JS truthiness of an optional string. -/
def titleTruthy : Option String → Bool
  | some t => decide (t ≠ "")
  | none => false

/-! ## The content root -/

/-- The process working directory, fixed for this development (the source
reads process.cwd(); any absolute directory serves, and this one contains a
character that well-formed content slugs avoid, so that the substring checks
in loadPage cannot fire accidentally). -/
def cwdStr : String := "/@site"

/-- contentDir: path.join(process.cwd(), "content") with backslashes turned
into slashes. -/
def contentDirStr : String := replaceBackslashes (posixJoin cwdStr "content")

/-- path.normalize(contentDir), computed once inside loadPage. -/
def normalizedContentDir : String := posixNormalize contentDirStr

/-! ## Page Loader -/

/-- The input-normalization block of loadPage: strip an absolute or
content-root prefix, then a leading "./". -/
def resolvedRelative (pathArgument : String) : String :=
  let relativePath := pathArgument
  let relativePath :=
    if posixIsAbsolute pathArgument then
      let pathFromCwd := posixRelative cwdStr pathArgument
      if strStartsWith pathFromCwd ("/" ++ "content" ++ "/")
          || strStartsWith pathFromCwd ("content" ++ "/") then
        strDropChars pathFromCwd ("content".length + 1)
      else relativePath
    else if strContains pathArgument normalizedContentDir
        || strContains pathArgument contentDirStr then
      let prefixToRemove :=
        if strStartsWith pathArgument normalizedContentDir then normalizedContentDir
        else contentDirStr
      if strStartsWith pathArgument prefixToRemove then
        let r := strDropChars pathArgument prefixToRemove.length
        -- startsWith(path.sep) || startsWith("/"): both are "/" on posix
        if strStartsWith r "/" || strStartsWith r "/" then strDropChars r 1 else r
      else relativePath
    else relativePath
  let relativePath :=
    if strStartsWith relativePath ("./" ++ "/") then strDropChars relativePath 2
    else relativePath
  if strStartsWith relativePath "./" then strDropChars relativePath 2 else relativePath

/-- The first candidate file: path.join(path.join(contentDir, rel) + ".md"). -/
def mdCandidate (relativePath : String) : String :=
  posixNormalize (posixJoin normalizedContentDir relativePath ++ ".md")

/-- The fallback candidate file: path.join(base, "index.md"). -/
def idxCandidate (relativePath : String) : String :=
  posixJoin (posixJoin normalizedContentDir relativePath) "index.md"

/-- loadPage: resolve the argument to a content-relative path, read
rel.md or else rel/index.md, and build the page record. -/
def loadPage (fs : FS) (pathArgument : String) : Except String PageRecord :=
  let relativePath := resolvedRelative pathArgument
  let parts := strSplitSlash relativePath
  match List.lookup (mdCandidate relativePath) fs with
  | some f =>
    Except.ok
      { key := parts.getLastD ""
        href := "/" ++ replaceBackslashes relativePath
        title := f.data.title
        menuTitle := jsOrStr f.data.menu f.data.title
        mdPath := replaceBackslashes (relativePath ++ ".md")
        data := f.data
        body := f.content
        description := jsOrStr f.data.description none
        prev := none
        next := none }
  | none =>
    match List.lookup (idxCandidate relativePath) fs with
    | some f =>
      Except.ok
        { key := parts.getLastD ""
          href := "/" ++ replaceBackslashes relativePath
          title := f.data.title
          menuTitle := jsOrStr f.data.menu f.data.title
          mdPath := replaceBackslashes (posixJoin relativePath "index.md")
          data := f.data
          body := f.content
          description := jsOrStr f.data.description none
          prev := none
          next := none }
    | none =>
      Except.error ("ENOENT: no such file or directory, tried '"
        ++ mdCandidate relativePath ++ "' and '" ++ idxCandidate relativePath ++ "'")

/-- loadMenuPage: the summary kept in the menu (key, href, menuTitle as
title, front matter). -/
def loadMenuPage (fs : FS) (p : String) : Except String MenuPage := do
  let page ← loadPage fs p
  pure { key := page.key, href := page.href, title := page.menuTitle,
         menuTitle := none, data := some page.data }

/-! ## Menu Normalizer -/

/-- The error raised when normalize iterates a nested value that is a
mapping rather than a list (for..of over a plain object throws). -/
def normalizeErrMsg : String := "TypeError: menu entry nested value is not iterable"

/-- normalize: walk one level of the sitemap in declaration order.  An entry
with a truthy href becomes a stub from the spread of the sitemap value; an
entry without nested is loaded as a single page; a list-shaped nested value
loads one child page per key and then the section's index page; a
mapping-shaped nested value is iterated with for..of and therefore throws. -/
def normalize (fs : FS) : List (String × SEntry) → String → Except String (List MenuEntry)
  | [], _ => Except.ok []
  | (l1, v) :: rest, root => do
    let entry ←
      match v with
      | SEntry.link h t =>
        if h ≠ "" then
          Except.ok (MenuEntry.mk none none
            (some { key := l1, href := h, title := t, menuTitle := none, data := none }) [])
        else do
          -- an empty href is falsy, so the entry is treated as a single page
          let p ← loadMenuPage fs (root ++ "/" ++ l1)
          pure (MenuEntry.mk none none (some p) [])
      | SEntry.leaf _ => do
          let p ← loadMenuPage fs (root ++ "/" ++ l1)
          pure (MenuEntry.mk none none (some p) [])
      | SEntry.sec _ ks => do
          let submenu ← ks.mapM (fun l2 => do
            let q ← loadMenuPage fs (root ++ "/" ++ l1 ++ "/" ++ l2)
            pure (MenuEntry.mk none none (some q) []))
          let p ← loadMenuPage fs (root ++ "/" ++ l1)
          pure (MenuEntry.mk none none (some p) submenu)
      | SEntry.group _ _ => Except.error normalizeErrMsg
    let restOut ← normalize fs rest root
    pure (entry :: restOut)

/-! ## Path Collector -/

mutual

/-- Termination measure of one sitemap value (mutual with wvList). -/
def wv : SEntry → Nat
  | .link _ _ => 0
  | .leaf _ => 0
  | .sec _ ks => 2 + 2 * ks.length
  | .group _ m => 1 + wvList m

/-- Termination measure of a sitemap level (mutual with wv). -/
def wvList : List (String × SEntry) → Nat
  | [] => 0
  | (_, v) :: rest => 1 + wv v + wvList rest

end

/-- collectPaths: emit prefix/key for every node whose href is falsy; for a
list-shaped nested value recurse on a synthesized single-key mapping per
child; for a mapping-shaped nested value recurse into it. -/
def collectPaths (level : List (String × SEntry)) (pre : String) : List String :=
  match level with
  | [] => []
  | (k, v) :: rest =>
    (if v.hrefTruthy = false then [pre ++ "/" ++ k] else [])
      ++ (match v with
          | SEntry.sec _ ks =>
            (ks.map (fun p => collectPaths [(p, SEntry.leaf none)] (pre ++ "/" ++ k))).flatten
          | SEntry.group _ m => collectPaths m (pre ++ "/" ++ k)
          | _ => [])
      ++ collectPaths rest pre
termination_by wvList level
decreasing_by
  all_goals simp [wvList, wv]
  all_goals omega

/-- The params object of one static path. -/
structure PathParams where
  slug : List String
deriving DecidableEq, Repr

/-- One static path entry. -/
structure PathEntry where
  params : PathParams
deriving DecidableEq, Repr

/-- The object returned by getMenuPaths. -/
structure MenuPathsResult where
  paths : List PathEntry
  fallback : Bool
deriving DecidableEq, Repr

/-- getMenuPaths: collect slugs, split each on "/" dropping the first
element (the destructuring skips it), and disable fallback routing. -/
def getMenuPaths (menu : List (String × SEntry)) : MenuPathsResult :=
  { paths := (collectPaths menu "").map (fun slug =>
      { params := { slug := (strSplitSlash slug).drop 1 } })
    fallback := false }

/-! ## Prev/Next Linker -/

/-- A MenuPage object has no .page property; reading it yields undefined. -/
def MenuPage.pageProp (_ : MenuPage) : Option MenuPage := none

/-- JS a || b on optional objects (an object is always truthy). -/
def jsOrPage (a b : Option MenuPage) : Option MenuPage :=
  match a with
  | some p => some p
  | none => b

/-- The loop of eachPage: for each entry, if its page carries data call the
callback with the level's previous-page cursor (or the dead
prevSection && prevSection.page fallback) and advance the cursor; then
recurse into the children with the entry's page as the child level's cursor
seed and the current cursor as prevSection.  Returns the threaded state and
the level's final cursor. -/
def eachPageLoop {σ : Type} (f : σ → MenuPage → Option MenuPage → σ) :
    List MenuEntry → Option MenuPage → Option MenuPage → σ → σ × Option MenuPage
  | [], prev, _, s => (s, prev)
  | MenuEntry.mk _ _ pg nested :: rest, prev, prevSection, s =>
    match pg with
    | some p =>
      if p.data.isSome then
        let s1 := f s p (jsOrPage prev (prevSection.bind MenuPage.pageProp))
        let s2 := (eachPageLoop f nested (some p) (some p) s1).1
        eachPageLoop f rest (some p) prevSection s2
      else
        let s2 := (eachPageLoop f nested (some p) prev s).1
        eachPageLoop f rest prev prevSection s2
    | none =>
      let s2 := (eachPageLoop f nested none prev s).1
      eachPageLoop f rest prev prevSection s2

/-- eachPage as called from setPrevNext (initial prev and prevSection are
undefined). -/
def eachPage {σ : Type} (f : σ → MenuPage → Option MenuPage → σ)
    (menu : List MenuEntry) (s : σ) : σ :=
  (eachPageLoop f menu none none s).1

/-- The callback setPrevNext passes to eachPage, threading the mutated page
record and the didMatch flag: at the page whose href equals the target's,
set prev from the cursor when it has a truthy title and raise the flag; at
the first page visited after the match, set next and clear the flag. -/
def spnStep (page : PageRecord) (st : PageRecord × Bool) (p : MenuPage)
    (prev : Option MenuPage) : PageRecord × Bool :=
  if p.href = page.href then
    match prev with
    | some q =>
      if titleTruthy q.title then
        ({ st.1 with prev := some { title := jsOrStr q.menuTitle q.title, href := q.href } }, true)
      else (st.1, true)
    | none => (st.1, true)
  else if st.2 then
    ({ st.1 with next := some { title := jsOrStr p.menuTitle p.title, href := p.href } }, false)
  else st

/-- setPrevNext: traverse the menu with the did-match callback. -/
def setPrevNext (page : PageRecord) (menu : List MenuEntry) : PageRecord :=
  (eachPage (spnStep page) menu (page, false)).1

/-! ## Date-ordered collections and props assembly -/

/-- The file names matched by globSync(contentDir/root/\x2a.md): entries of
the filesystem directly under contentDir/root whose name ends in ".md" and
does not start with a dot (glob hides dotfiles), in filesystem enumeration
order (the glob's enumeration order is unspecified). -/
def globMd (fs : FS) (root : String) : List String :=
  (fs.map Prod.fst).filter (fun full =>
    let pre := (contentDirStr ++ "/" ++ root ++ "/").data
    hasPrefixL pre full.data &&
      (let name := full.data.drop pre.length
       decide ('/' ∉ name) && hasPrefixL ['d', 'm', '.'] name.reverse
         && !(hasPrefixL ['.'] name)))

/-- A page paired with its parsed date (the spread { date, ...page }). -/
structure DatedPage where
  date : Int
  page : PageRecord
deriving DecidableEq, Repr

/-- The body of getDateOrderedPaths's map: strip the content prefix and the
".md" suffix, load the page, attach Date.parse(page.data.date). -/
def loadDated (fs : FS) (fullPath : String) : Except String DatedPage := do
  let p := stripMdSuffix (removeFirst fullPath (contentDirStr ++ "/"))
  let page ← loadPage fs p
  pure { date := page.data.date, page := page }

/-- getDateOrderedPaths: glob the collection, load and date each page, and
sort by the comparator (a, b) => b.date - a.date (a stable sort, descending
by date). -/
def getDateOrderedPaths (fs : FS) (root : String) : Except String (List DatedPage) := do
  let base ← (globMd fs root).mapM (loadDated fs)
  pure (base.mergeSort (fun a b => decide (b.date ≤ a.date)))

/-- getLastBlog: the first element of the date-ordered blog collection
(undefined when the collection is empty). -/
def getLastBlog (fs : FS) : Except String (Option DatedPage) := do
  let l ← getDateOrderedPaths fs "blog"
  pure l.head?

/-- A dated page with the body property deleted (all remaining fields). -/
structure BlogSansBody where
  date : Int
  key : String
  href : String
  title : Option String
  menuTitle : Option String
  mdPath : String
  data : FrontMatter
  description : Option String
  prev : Option Link
  next : Option Link
deriving DecidableEq, Repr

/-- delete blog.body: every property of the dated page except body. -/
def stripBody (b : DatedPage) : BlogSansBody :=
  { date := b.date, key := b.page.key, href := b.page.href, title := b.page.title,
    menuTitle := b.page.menuTitle, mdPath := b.page.mdPath, data := b.page.data,
    description := b.page.description, prev := b.page.prev, next := b.page.next }

/-- App-wide props: the latest blog post. -/
structure AppData where
  blog : BlogSansBody
deriving DecidableEq, Repr

/-- The props object assembled for a page render. -/
structure PropsObj where
  page : Option PageRecord
  menu : List MenuEntry
  app : Option AppData

/-- The error raised by delete blog.body when blog is undefined. -/
def undefinedDeleteMsg : String := "TypeError: Cannot convert undefined to object"

/-- withAppProps: fetch the latest blog post, delete its body (throwing when
there is none), and merge it into the props. -/
def withAppProps (fs : FS) (props : PropsObj) : Except String PropsObj := do
  let blog ← getLastBlog fs
  match blog with
  | none => Except.error undefinedDeleteMsg
  | some b => pure { props with app := some { blog := stripBody b } }

/-- The error raised by a property access on undefined. -/
def undefinedPropMsg : String := "TypeError: Cannot read properties of undefined"

/-- getProps: join the slug, load and render the target page, normalize the
requested top-level section's subtree, run the prev/next linker, and wrap
everything with the app props.  (Object.keys of a list-shaped nested value
enumerates its indices, whose values are plain strings and hence load as
single pages.) -/
def getProps (toHTML : String → String) (fs : FS) (menu : List (String × SEntry))
    (slugParts : List String) : Except String PropsObj := do
  let slug := String.intercalate "/" slugParts
  let root := (strSplitSlash slug).headD ""
  let page ← loadPage fs slug
  let page := { page with body := toHTML page.body }
  match List.lookup root menu with
  | none => Except.error undefinedPropMsg
  | some v => do
    let sub ←
      match v with
      | SEntry.group _ m => normalize fs m root
      | SEntry.sec _ ks =>
        normalize fs ((List.range ks.length).map (fun i => (toString i, SEntry.leaf none))) root
      | _ => Except.error undefinedPropMsg
    let normalized := [MenuEntry.mk (some root) v.titleOf none sub]
    let page := setPrevNext page normalized
    withAppProps fs { page := some page, menu := normalized, app := none }

/-! ## Specification-side definitions (for comparison with the code) -/

/-- Spec 4.3's routable-path description, written from the spec's words: one
slug per node that is not an external link, children of a list-shaped
section emitted directly, mapping-shaped nesting recursed with an
accumulated prefix. -/
def specRoutablePaths (level : List (String × SEntry)) (pre : String) : List String :=
  match level with
  | [] => []
  | (k, v) :: rest =>
    (match v with
     | SEntry.link _ _ => []
     | _ => [pre ++ "/" ++ k])
      ++ (match v with
          | SEntry.sec _ ks => ks.map (fun c => pre ++ "/" ++ k ++ "/" ++ c)
          | SEntry.group _ m => specRoutablePaths m (pre ++ "/" ++ k)
          | _ => [])
      ++ specRoutablePaths rest pre
termination_by wvList level
decreasing_by
  all_goals simp [wvList, wv]
  all_goals omega

/-- The pages visited by the prev/next traversal, in depth-first declaration
order (a parent page before its nested children). -/
def visitedPages : List MenuEntry → List MenuPage
  | [] => []
  | MenuEntry.mk _ _ pg nested :: rest =>
    (match pg with
     | some p => if p.data.isSome then [p] else []
     | none => []) ++ visitedPages nested ++ visitedPages rest

/-- The traversal made explicit: each visited page paired with the value the
per-level previous-page cursor holds when the callback runs (descending into
children seeds the child level's cursor with the parent entry's page;
returning restores the outer level's cursor). -/
def visitPairs : List MenuEntry → Option MenuPage → List (MenuPage × Option MenuPage)
  | [], _ => []
  | MenuEntry.mk _ _ pg nested :: rest, prev =>
    match pg with
    | some p =>
      if p.data.isSome then
        (p, prev) :: (visitPairs nested (some p) ++ visitPairs rest (some p))
      else visitPairs nested (some p) ++ visitPairs rest prev
    | none => visitPairs nested none ++ visitPairs rest prev

/-- The value of a level's previous-page cursor after the whole level has
been walked (nested levels do not touch it). -/
def prevAfter : List MenuEntry → Option MenuPage → Option MenuPage
  | [], prev => prev
  | MenuEntry.mk _ _ pg _ :: rest, prev =>
    prevAfter rest (match pg with
      | some p => if p.data.isSome then some p else prev
      | none => prev)

/-- Shape invariant of normalized menus: an entry whose page carries no
front-matter data (an external-link stub) has no children. -/
def wfEntries : List MenuEntry → Bool
  | [] => true
  | MenuEntry.mk _ _ pg nested :: rest =>
    (match pg with
     | some p => p.data.isSome || nested.isEmpty
     | none => true) && wfEntries nested && wfEntries rest

/-- Every external link in the sitemap has a nonempty href. -/
def wfHrefs (level : List (String × SEntry)) : Bool :=
  match level with
  | [] => true
  | (_, SEntry.link h _) :: rest => decide (h ≠ "") && wfHrefs rest
  | (_, SEntry.group _ m) :: rest => wfHrefs m && wfHrefs rest
  | (_, _) :: rest => wfHrefs rest
termination_by wvList level
decreasing_by
  all_goals simp [wvList, wv]
  all_goals omega

/-- The prev link setPrevNext derives from a cursor value. -/
def prevLinkOf : Option MenuPage → Option Link
  | some q =>
    if titleTruthy q.title then some { title := jsOrStr q.menuTitle q.title, href := q.href }
    else none
  | none => none

/-- The next link setPrevNext derives from the first pair after the match. -/
def nextLinkOf : Option (MenuPage × Option MenuPage) → Option Link
  | some (q, _) => some { title := jsOrStr q.menuTitle q.title, href := q.href }
  | none => none

/-- A well-formed path segment: nonempty, no separator, no backslash, not a
dot segment, and avoiding the character that marks this content root. -/
def goodSeg (s : List Char) : Bool :=
  decide (s ≠ []) && decide ('/' ∉ s) && decide ('\\' ∉ s) && decide ('@' ∉ s)
    && decide (s ≠ ['.']) && decide (s ≠ ['.', '.'])

/-- A valid root-relative slug: every slash-separated segment well formed. -/
def cleanSlug (s : String) : Bool :=
  (splitSegs s.data).all goodSeg

/-- Build a slug from its path segments (the canonical form of a valid
root-relative slug: well-formed segments joined by slashes). -/
def slugOf (segs : List String) : String :=
  String.mk (joinSegs (segs.map String.data))

/-- Append characters to the last segment of a segment list. -/
def appLast (m : List Char) : List (List Char) → List (List Char)
  | [] => []
  | [a] => [a ++ m]
  | a :: b :: rest => a :: appLast m (b :: rest)

/-- Strip the leading slash of an href (done by loadPage's callers when they
feed an href back in). -/
def stripLeadingSlash (s : String) : String := String.mk s.data.tail

/-! ## Concrete fixtures used by witnesses and counterexamples -/

/-- Front matter with a title and a parsed date. -/
def fmOf (t : String) (d : Int) : FrontMatter :=
  { title := some t, menu := none, description := none, date := d }

/-- A content file with a title, a date and a body. -/
def fdOf (t : String) (d : Int) : FileData :=
  { data := fmOf t d, content := "raw " ++ t }

/-- A small content filesystem: a section r with a nested part, a page with
both a direct file and an index file, and a dated blog collection. -/
def fsDemo : FS :=
  [ ("/@site/content/r/a.md", fdOf "A" 0),
    ("/@site/content/r/b.md", fdOf "B" 0),
    ("/@site/content/r/b/c.md", fdOf "C" 0),
    ("/@site/content/r/b/d.md", fdOf "D" 0),
    ("/@site/content/r/e.md", fdOf "E" 0),
    ("/@site/content/tokio/tutorial.md", fdOf "T" 0),
    ("/@site/content/tokio/tutorial/index.md", fdOf "TI" 0),
    ("/@site/content/blog/p1.md", fdOf "P1" 1672531200000),
    ("/@site/content/blog/p2.md", fdOf "P2" 1718409600000),
    ("/@site/content/blog/p3.md", fdOf "P3" 1672444800000) ]

/-- The sitemap of section r: two plain pages around a list-shaped section. -/
def menuDemo : List (String × SEntry) :=
  [("a", SEntry.leaf none), ("b", SEntry.sec none ["c", "d"]), ("e", SEntry.leaf none)]

/-- A sitemap with mapping-shaped nesting, a list-shaped section and an
external link. -/
def smDemo : List (String × SEntry) :=
  [("tokio", SEntry.group (some "Tokio")
    [("tutorial", SEntry.sec none ["async", "select"]),
     ("x", SEntry.link "https://x" none)])]

/-- The menu summaries of the demo pages (what loadMenuPage builds). -/
def mpA : MenuPage :=
  { key := "a", href := "/r/a", title := some "A", menuTitle := none, data := some (fmOf "A" 0) }

/-- See mpA. -/
def mpB : MenuPage :=
  { key := "b", href := "/r/b", title := some "B", menuTitle := none, data := some (fmOf "B" 0) }

/-- See mpA. -/
def mpC : MenuPage :=
  { key := "c", href := "/r/b/c", title := some "C", menuTitle := none, data := some (fmOf "C" 0) }

/-- See mpA. -/
def mpD : MenuPage :=
  { key := "d", href := "/r/b/d", title := some "D", menuTitle := none, data := some (fmOf "D" 0) }

/-- See mpA. -/
def mpE : MenuPage :=
  { key := "e", href := "/r/e", title := some "E", menuTitle := none, data := some (fmOf "E" 0) }

/-- The normalized entries of the demo section (the value normalize returns
on fsDemo and menuDemo, pinned as a literal). -/
def entriesDemo : List MenuEntry :=
  [ MenuEntry.mk none none (some mpA) [],
    MenuEntry.mk none none (some mpB)
      [MenuEntry.mk none none (some mpC) [], MenuEntry.mk none none (some mpD) []],
    MenuEntry.mk none none (some mpE) [] ]

/-- The tree getProps hands to setPrevNext: a pageless wrapper entry over
the normalized entries. -/
def treeDemo : List MenuEntry := [MenuEntry.mk (some "r") none none entriesDemo]

/-- The loaded page record of r/e. -/
def pageEDemo : PageRecord :=
  { key := "e", href := "/r/e", title := some "E", menuTitle := some "E",
    mdPath := "r/e.md", data := fmOf "E" 0, body := "raw E",
    description := none, prev := none, next := none }

/-- The loaded page record of r/b/c. -/
def pageCDemo : PageRecord :=
  { key := "c", href := "/r/b/c", title := some "C", menuTitle := some "C",
    mdPath := "r/b/c.md", data := fmOf "C" 0, body := "raw C",
    description := none, prev := none, next := none }

/-- The loaded page record of r/a. -/
def pageADemo : PageRecord :=
  { key := "a", href := "/r/a", title := some "A", menuTitle := some "A",
    mdPath := "r/a.md", data := fmOf "A" 0, body := "raw A",
    description := none, prev := none, next := none }

/-- A page whose href matches nothing in the demo tree. -/
def ghostDemo : PageRecord :=
  { key := "zzz", href := "/zzz", title := some "Z", menuTitle := some "Z",
    mdPath := "zzz.md", data := fmOf "Z" 0, body := "raw Z",
    description := none, prev := none, next := none }

/-- The dated record of blog/p1 (2023-01-01). -/
def dpP1 : DatedPage :=
  { date := 1672531200000, page :=
    { key := "p1", href := "/blog/p1", title := some "P1", menuTitle := some "P1",
      mdPath := "blog/p1.md", data := fmOf "P1" 1672531200000, body := "raw P1",
      description := none, prev := none, next := none } }

/-- The dated record of blog/p2 (2024-06-15). -/
def dpP2 : DatedPage :=
  { date := 1718409600000, page :=
    { key := "p2", href := "/blog/p2", title := some "P2", menuTitle := some "P2",
      mdPath := "blog/p2.md", data := fmOf "P2" 1718409600000, body := "raw P2",
      description := none, prev := none, next := none } }

/-- The dated record of blog/p3 (2022-12-31). -/
def dpP3 : DatedPage :=
  { date := 1672444800000, page :=
    { key := "p3", href := "/blog/p3", title := some "P3", menuTitle := some "P3",
      mdPath := "blog/p3.md", data := fmOf "P3" 1672444800000, body := "raw P3",
      description := none, prev := none, next := none } }

/-- The demo blog collection in descending date order. -/
def dopDemo : List DatedPage := [dpP2, dpP1, dpP3]

/-- An initially empty props object. -/
def propsDemo : PropsObj := { page := none, menu := [], app := none }

/-! ## Lemmas about the string and path helpers -/

theorem hasPrefixL_mem {p l : List Char} (h : hasPrefixL p l = true) : ∀ c ∈ p, c ∈ l := by
  induction p generalizing l with
  | nil => intro c hc; cases hc
  | cons a as ih =>
    cases l with
    | nil => simp [hasPrefixL] at h
    | cons b bs =>
      simp only [hasPrefixL, Bool.and_eq_true, decide_eq_true_eq] at h
      intro c hc
      rcases List.mem_cons.mp hc with hc | hc
      · exact List.mem_cons.mpr (Or.inl (hc.trans h.1))
      · exact List.mem_cons.mpr (Or.inr (ih h.2 c hc))

theorem hasInfixL_mem {sub l : List Char} (h : hasInfixL sub l = true) : ∀ c ∈ sub, c ∈ l := by
  simp only [hasInfixL, List.any_eq_true] at h
  obtain ⟨i, _, hp⟩ := h
  intro c hc
  exact List.mem_of_mem_drop (hasPrefixL_mem hp c hc)

theorem splitSegs_ne_nil (l : List Char) : splitSegs l ≠ [] := by
  cases l with
  | nil => simp [splitSegs]
  | cons c rest =>
    simp only [splitSegs]
    split
    · simp
    · split <;> simp

theorem splitSegs_no_slash (l : List Char) (h : '/' ∉ l) : splitSegs l = [l] := by
  induction l with
  | nil => rfl
  | cons c rest ih =>
    have hc : ¬c = '/' := fun hc => h (hc ▸ List.mem_cons_self c rest)
    have hr : '/' ∉ rest := fun hr => h (List.mem_cons_of_mem c hr)
    simp only [splitSegs, if_neg hc, ih hr]

theorem splitSegs_append_slash (a b : List Char) (h : '/' ∉ a) :
    splitSegs (a ++ '/' :: b) = a :: splitSegs b := by
  induction a with
  | nil => simp [splitSegs]
  | cons c a' ih =>
    have hc : ¬c = '/' := fun hc => h (hc ▸ List.mem_cons_self c a')
    have ha' : '/' ∉ a' := fun hr => h (List.mem_cons_of_mem c hr)
    simp only [List.cons_append, splitSegs, if_neg hc, List.append_eq]
    rw [ih ha']

theorem joinSegs_cons (a : List Char) (rest : List (List Char)) :
    joinSegs (a :: rest) = a ++ (if rest.isEmpty then [] else '/' :: joinSegs rest) := by
  cases rest with
  | nil => simp [joinSegs]
  | cons b r => simp [joinSegs]

theorem joinSegs_cons_ne (a : List Char) (rest : List (List Char)) (h : rest ≠ []) :
    joinSegs (a :: rest) = a ++ '/' :: joinSegs rest := by
  cases rest with
  | nil => exact absurd rfl h
  | cons b r => rfl

theorem joinSegs_ne_nil (a : List Char) (rest : List (List Char)) (ha : a ≠ []) :
    joinSegs (a :: rest) ≠ [] := by
  rw [joinSegs_cons]
  intro h
  exact ha (List.append_eq_nil.mp h).1

theorem splitSegs_joinSegs (segs : List (List Char)) (h : ∀ a ∈ segs, '/' ∉ a)
    (hn : segs ≠ []) : splitSegs (joinSegs segs) = segs := by
  induction segs with
  | nil => exact absurd rfl hn
  | cons a rest ih =>
    cases rest with
    | nil =>
      simp only [joinSegs]
      exact splitSegs_no_slash a (h a (List.mem_cons_self a []))
    | cons b r =>
      have hrest : splitSegs (joinSegs (b :: r)) = b :: r :=
        ih (fun x hx => h x (List.mem_cons_of_mem a hx)) (by simp)
      calc splitSegs (joinSegs (a :: b :: r))
          = splitSegs (a ++ '/' :: joinSegs (b :: r)) := by simp [joinSegs]
        _ = a :: splitSegs (joinSegs (b :: r)) :=
            splitSegs_append_slash _ _ (h a (List.mem_cons_self a _))
        _ = a :: b :: r := by rw [hrest]

theorem chars_of_joinSegs (segs : List (List Char)) (c : Char) (h : c ∈ joinSegs segs) :
    c = '/' ∨ ∃ a ∈ segs, c ∈ a := by
  induction segs with
  | nil => cases h
  | cons a rest ih =>
    cases rest with
    | nil =>
      exact Or.inr ⟨a, List.mem_cons_self a [], h⟩
    | cons b r =>
      simp only [joinSegs] at h
      rcases List.mem_append.mp h with h | h
      · exact Or.inr ⟨a, List.mem_cons_self a _, h⟩
      · rcases List.mem_cons.mp h with h | h
        · exact Or.inl h
        · rcases ih h with h | ⟨x, hx, hcx⟩
          · exact Or.inl h
          · exact Or.inr ⟨x, List.mem_cons_of_mem a hx, hcx⟩

theorem joinSegs_getLast?_ne_slash (segs : List (List Char))
    (h : ∀ a ∈ segs, a ≠ [] ∧ '/' ∉ a) (hn : segs ≠ []) :
    ∀ c, (joinSegs segs).getLast? = some c → c ≠ '/' := by
  induction segs with
  | nil => exact absurd rfl hn
  | cons a rest ih =>
    cases rest with
    | nil =>
      intro c hc
      obtain ⟨ha, hs⟩ := h a (List.mem_cons_self a [])
      have : c ∈ a := by
        have := List.getLast?_eq_getLast a ha
        rw [joinSegs] at hc
        rw [this] at hc
        exact (Option.some_inj.mp hc) ▸ List.getLast_mem ha
      exact fun hcs => hs (hcs ▸ this)
    | cons b r =>
      intro c hc
      have hb : joinSegs (b :: r) ≠ [] :=
        joinSegs_ne_nil b r (h b (List.mem_cons_of_mem a (List.mem_cons_self b r))).1
      have step : (joinSegs (a :: b :: r)).getLast? = (joinSegs (b :: r)).getLast? := by
        simp only [joinSegs]
        rw [List.getLast?_append]
        have h2 : ('/' :: joinSegs (b :: r)).getLast? = (joinSegs (b :: r)).getLast? := by
          have : '/' :: joinSegs (b :: r) = ['/'] ++ joinSegs (b :: r) := rfl
          rw [this, List.getLast?_append]
          rw [List.getLast?_eq_getLast _ hb]
          rfl
        rw [h2, List.getLast?_eq_getLast _ hb]
        rfl
      rw [step] at hc
      exact ih (fun x hx => h x (List.mem_cons_of_mem a hx)) (by simp) c hc

theorem appLast_ne_nil (m : List Char) (segs : List (List Char)) (hn : segs ≠ []) :
    appLast m segs ≠ [] := by
  cases segs with
  | nil => exact absurd rfl hn
  | cons a rest => cases rest <;> simp [appLast]

theorem joinSegs_append_last (segs : List (List Char)) (m : List Char) (hn : segs ≠ []) :
    joinSegs segs ++ m = joinSegs (appLast m segs) := by
  induction segs with
  | nil => exact absurd rfl hn
  | cons a rest ih =>
    cases rest with
    | nil => simp [joinSegs, appLast]
    | cons b r =>
      have hih := ih (by simp)
      have hne : appLast m (b :: r) ≠ [] := appLast_ne_nil m (b :: r) (by simp)
      have h1 : joinSegs (a :: b :: r) = a ++ '/' :: joinSegs (b :: r) := rfl
      have h2 : appLast m (a :: b :: r) = a :: appLast m (b :: r) := rfl
      rw [h1, h2, joinSegs_cons_ne a _ hne, ← hih]
      simp

theorem joinSegs_concat (segs : List (List Char)) (b : List Char) (hn : segs ≠ []) :
    joinSegs (segs ++ [b]) = joinSegs segs ++ '/' :: b := by
  induction segs with
  | nil => exact absurd rfl hn
  | cons a rest ih =>
    cases rest with
    | nil => simp [joinSegs]
    | cons x r =>
      have hih := ih (by simp)
      have h1 : (a :: x :: r) ++ [b] = a :: ((x :: r) ++ [b]) := rfl
      have hne : (x :: r) ++ [b] ≠ [] := by simp
      rw [h1, joinSegs_cons_ne a _ hne, hih]
      have h3 : joinSegs (a :: x :: r) = a ++ '/' :: joinSegs (x :: r) := rfl
      rw [h3]
      simp

theorem appLast_forall {P : List Char → Prop} (m : List Char) (segs : List (List Char))
    (h : ∀ a ∈ segs, P a) (hm : ∀ a, P a → P (a ++ m)) : ∀ a ∈ appLast m segs, P a := by
  induction segs with
  | nil => intro a ha; cases ha
  | cons a rest ih =>
    cases rest with
    | nil =>
      intro x hx
      simp only [appLast, List.mem_singleton] at hx
      exact hx ▸ hm a (h a (List.mem_cons_self a []))
    | cons b r =>
      intro x hx
      simp only [appLast] at hx
      rcases List.mem_cons.mp hx with hx | hx
      · exact hx ▸ h a (List.mem_cons_self a _)
      · exact ih (fun y hy => h y (List.mem_cons_of_mem a hy)) x hx

theorem goodSeg_props {a : List Char} (h : goodSeg a = true) :
    a ≠ [] ∧ '/' ∉ a ∧ '\\' ∉ a ∧ '@' ∉ a ∧ a ≠ ['.'] ∧ a ≠ ['.', '.'] := by
  simp only [goodSeg, Bool.and_eq_true, decide_eq_true_eq] at h
  tauto

theorem normSegsAux_good (abs : Bool) (acc segs : List (List Char))
    (h : ∀ a ∈ segs, a ≠ [] ∧ a ≠ ['.'] ∧ a ≠ ['.', '.']) :
    normSegsAux abs acc segs = segs.reverse ++ acc := by
  induction segs generalizing acc with
  | nil => simp [normSegsAux]
  | cons s rest ih =>
    obtain ⟨h1, h2, h3⟩ := h s (List.mem_cons_self s rest)
    have hcond : ¬(s = [] ∨ s = ['.']) := by
      rintro (hs | hs)
      · exact h1 hs
      · exact h2 hs
    simp only [normSegsAux, if_neg hcond, if_neg h3]
    rw [ih _ (fun a ha => h a (List.mem_cons_of_mem s ha))]
    simp

theorem joinSegs_last_not_slash (segs : List (List Char))
    (h : ∀ a ∈ segs, a ≠ [] ∧ '/' ∉ a) (hn : segs ≠ []) :
    endsSlashL (joinSegs segs) = false := by
  cases hsegs : segs with
  | nil => exact absurd hsegs hn
  | cons a rest =>
    subst hsegs
    have hne : joinSegs (a :: rest) ≠ [] :=
      joinSegs_ne_nil a rest (h a (List.mem_cons_self a rest)).1
    have hlast := List.getLast?_eq_getLast _ hne
    have := joinSegs_getLast?_ne_slash (a :: rest) h (by simp) _ hlast
    simp only [endsSlashL, hlast, decide_eq_false_iff_not]
    intro hc
    exact this (Option.some_inj.mp hc)

theorem normPath_rel_good (segs : List (List Char)) (hn : segs ≠ [])
    (h : ∀ a ∈ segs, a ≠ [] ∧ '/' ∉ a ∧ a ≠ ['.'] ∧ a ≠ ['.', '.']) :
    normPath (joinSegs segs) = joinSegs segs := by
  cases hsegs : segs with
  | nil => exact absurd hsegs hn
  | cons a rest =>
    subst hsegs
    obtain ⟨ha1, ha2, _, _⟩ := h a (List.mem_cons_self a rest)
    have habs : isAbsL (joinSegs (a :: rest)) = false := by
      rw [joinSegs_cons]
      cases hc : a with
      | nil => exact absurd hc ha1
      | cons c a' =>
        have : ¬c = '/' := fun hcc => ha2 (hc ▸ hcc ▸ List.mem_cons_self c a')
        simp [isAbsL, this]
    have htrail : endsSlashL (joinSegs (a :: rest)) = false :=
      joinSegs_last_not_slash _ (fun x hx => ⟨(h x hx).1, (h x hx).2.1⟩) (by simp)
    have hsplit : splitSegs (joinSegs (a :: rest)) = a :: rest :=
      splitSegs_joinSegs _ (fun x hx => (h x hx).2.1) (by simp)
    have hnorm : normSegsAux false [] (a :: rest) = (a :: rest).reverse ++ [] :=
      normSegsAux_good false [] _ (fun x hx => ⟨(h x hx).1, (h x hx).2.2.1, (h x hx).2.2.2⟩)
    have hne : joinSegs (a :: rest) ≠ [] := joinSegs_ne_nil a rest ha1
    simp only [normPath, habs, htrail, hsplit, hnorm]
    simp [hne]

theorem normPath_abs_good (segs : List (List Char)) (hn : segs ≠ [])
    (h : ∀ a ∈ segs, a ≠ [] ∧ '/' ∉ a ∧ a ≠ ['.'] ∧ a ≠ ['.', '.']) :
    normPath ('/' :: joinSegs segs) = '/' :: joinSegs segs := by
  cases hsegs : segs with
  | nil => exact absurd hsegs hn
  | cons a rest =>
    subst hsegs
    obtain ⟨ha1, _, _, _⟩ := h a (List.mem_cons_self a rest)
    have hne : joinSegs (a :: rest) ≠ [] := joinSegs_ne_nil a rest ha1
    have habs : isAbsL ('/' :: joinSegs (a :: rest)) = true := by simp [isAbsL]
    have htrail : endsSlashL ('/' :: joinSegs (a :: rest)) = false := by
      have hj := joinSegs_last_not_slash (a :: rest)
        (fun x hx => ⟨(h x hx).1, (h x hx).2.1⟩) (by simp)
      simp only [endsSlashL, decide_eq_false_iff_not] at hj ⊢
      intro hc
      apply hj
      have hsplit : ('/' :: joinSegs (a :: rest)) = ['/'] ++ joinSegs (a :: rest) := rfl
      rw [hsplit, List.getLast?_append] at hc
      rw [List.getLast?_eq_getLast _ hne] at hc ⊢
      simpa [Option.or] using hc
    have hsplit : splitSegs ('/' :: joinSegs (a :: rest)) = [] :: a :: rest := by
      have h0 : splitSegs ('/' :: joinSegs (a :: rest)) = [] :: splitSegs (joinSegs (a :: rest)) := by
        simp [splitSegs]
      rw [h0, splitSegs_joinSegs _ (fun x hx => (h x hx).2.1) (by simp)]
    have hnorm : normSegsAux true [] ([] :: a :: rest) = (a :: rest).reverse ++ [] := by
      have h0 : normSegsAux true [] ([] :: a :: rest) = normSegsAux true [] (a :: rest) := by
        simp [normSegsAux]
      rw [h0]
      exact normSegsAux_good true [] _ (fun x hx => ⟨(h x hx).1, (h x hx).2.2.1, (h x hx).2.2.2⟩)
    simp only [normPath, habs, htrail, hsplit, hnorm]
    simp [hne]

theorem contentDirStr_eq : contentDirStr = "/@site/content" := by decide

theorem normalizedContentDir_eq : normalizedContentDir = "/@site/content" := by decide

theorem slugOf_data (segs : List String) :
    (slugOf segs).data = joinSegs (segs.map String.data) := rfl

theorem slugOf_ne_empty (segs : List String) (hn : segs ≠ [])
    (hg : ∀ x ∈ segs, goodSeg x.data = true) : slugOf segs ≠ "" := by
  cases hsegs : segs with
  | nil => exact absurd hsegs hn
  | cons a rest =>
    subst hsegs
    have ha : a.data ≠ [] := (goodSeg_props (hg a (List.mem_cons_self a rest))).1
    intro hempty
    have hdata : (slugOf (a :: rest)).data = [] := by rw [hempty]
    rw [slugOf_data] at hdata
    exact joinSegs_ne_nil a.data (rest.map String.data) ha hdata

theorem slugOf_chars (segs : List String) (_hg : ∀ x ∈ segs, goodSeg x.data = true)
    {c : Char} (hc : c ∈ (slugOf segs).data) : c = '/' ∨ ∃ x ∈ segs, c ∈ x.data := by
  rw [slugOf_data] at hc
  rcases chars_of_joinSegs _ c hc with h | ⟨a, ha, hca⟩
  · exact Or.inl h
  · obtain ⟨x, hx, rfl⟩ := List.mem_map.mp ha
    exact Or.inr ⟨x, hx, hca⟩

theorem slugOf_no_backslash (segs : List String) (hg : ∀ x ∈ segs, goodSeg x.data = true) :
    '\\' ∉ (slugOf segs).data := by
  intro hc
  rcases slugOf_chars segs hg hc with h | ⟨x, hx, hcx⟩
  · exact absurd h (by decide)
  · exact (goodSeg_props (hg x hx)).2.2.1 hcx

theorem slugOf_no_at (segs : List String) (hg : ∀ x ∈ segs, goodSeg x.data = true) :
    '@' ∉ (slugOf segs).data := by
  intro hc
  rcases slugOf_chars segs hg hc with h | ⟨x, hx, hcx⟩
  · exact absurd h (by decide)
  · exact (goodSeg_props (hg x hx)).2.2.2.1 hcx

theorem map_keep_of_no_backslash (l : List Char) (h : '\\' ∉ l) :
    l.map (fun c => if c = '\\' then '/' else c) = l := by
  induction l with
  | nil => rfl
  | cons c r ih =>
    have hc : ¬c = '\\' := fun hc => h (hc ▸ List.mem_cons_self c r)
    have hr : '\\' ∉ r := fun hr => h (List.mem_cons_of_mem c hr)
    simp [List.map_cons, if_neg hc, ih hr]

theorem replaceBackslashes_id (s : String) (h : '\\' ∉ s.data) :
    replaceBackslashes s = s := by
  rw [replaceBackslashes, map_keep_of_no_backslash s.data h]

theorem hasPrefixL_dotslash_false (p t a : List Char) (hg : goodSeg a = true) :
    hasPrefixL ('.' :: '/' :: p) (a ++ t) = false := by
  obtain ⟨hne, hslash, _, _, hdot, _⟩ := goodSeg_props hg
  cases a with
  | nil => exact absurd rfl hne
  | cons c a' =>
    by_cases hc : ('.' : Char) = c
    · subst hc
      cases a' with
      | nil => exact absurd rfl hdot
      | cons c2 a'' =>
        have hc2 : ¬('/' : Char) = c2 := fun hcc => hslash (by
          rw [hcc]
          exact List.mem_cons_of_mem _ (List.mem_cons_self c2 a''))
        simp [hasPrefixL, hc2]
    · simp [hasPrefixL, hc]

theorem posixIsAbsolute_slugOf (segs : List String) (hn : segs ≠ [])
    (hg : ∀ x ∈ segs, goodSeg x.data = true) :
    posixIsAbsolute (slugOf segs) = false := by
  cases hsegs : segs with
  | nil => exact absurd hsegs hn
  | cons x rest =>
    subst hsegs
    obtain ⟨h1, h2, _⟩ := goodSeg_props (hg x (List.mem_cons_self x rest))
    rw [posixIsAbsolute, slugOf_data, List.map_cons, joinSegs_cons]
    cases hx : x.data with
    | nil => exact absurd hx h1
    | cons c cs =>
      have hc : ¬c = '/' := fun hcc => h2 (hx ▸ hcc ▸ List.mem_cons_self c cs)
      simp [isAbsL, hc]

theorem strContains_slug_cd (segs : List String)
    (hg : ∀ x ∈ segs, goodSeg x.data = true) :
    strContains (slugOf segs) "/@site/content" = false := by
  rw [Bool.eq_false_iff]
  intro htrue
  rw [strContains] at htrue
  exact slugOf_no_at segs hg (hasInfixL_mem htrue '@' (by decide))

theorem slug_dotprefix_false (segs : List String) (hn : segs ≠ [])
    (hg : ∀ x ∈ segs, goodSeg x.data = true) (p : List Char) :
    hasPrefixL ('.' :: '/' :: p) (slugOf segs).data = false := by
  cases hsegs : segs with
  | nil => exact absurd hsegs hn
  | cons x rest =>
    subst hsegs
    rw [slugOf_data, List.map_cons, joinSegs_cons]
    exact hasPrefixL_dotslash_false p _ x.data (hg x (List.mem_cons_self x rest))

theorem resolvedRelative_slugOf (segs : List String) (hn : segs ≠ [])
    (hg : ∀ x ∈ segs, goodSeg x.data = true) :
    resolvedRelative (slugOf segs) = slugOf segs := by
  have habs := posixIsAbsolute_slugOf segs hn hg
  have hcd := strContains_slug_cd segs hg
  have hdot : strStartsWith (slugOf segs) "./" = false :=
    slug_dotprefix_false segs hn hg []
  have hdot2 : strStartsWith (slugOf segs) ("./" ++ "/") = false :=
    slug_dotprefix_false segs hn hg ['/']
  rw [resolvedRelative]
  simp only [normalizedContentDir_eq, contentDirStr_eq, habs, hcd, hdot, hdot2,
    Bool.or_self, Bool.false_eq_true, if_false]

theorem contentPath_data (segs : List String) (hn : segs ≠ []) :
    (contentDirStr ++ "/" ++ slugOf segs).data =
      '/' :: joinSegs ("@site".data :: "content".data :: segs.map String.data) := by
  cases segs with
  | nil => exact absurd rfl hn
  | cons a rest => rfl

theorem contentSegs_good (segs : List String) (hg : ∀ x ∈ segs, goodSeg x.data = true) :
    ∀ a ∈ ("@site".data :: "content".data :: segs.map String.data),
      a ≠ [] ∧ '/' ∉ a ∧ a ≠ ['.'] ∧ a ≠ ['.', '.'] := by
  intro a ha
  rcases List.mem_cons.mp ha with rfl | ha
  · exact ⟨by decide, by decide, by decide, by decide⟩
  rcases List.mem_cons.mp ha with rfl | ha
  · exact ⟨by decide, by decide, by decide, by decide⟩
  obtain ⟨x, hx, rfl⟩ := List.mem_map.mp ha
  obtain ⟨h1, h2, _, _, h5, h6⟩ := goodSeg_props (hg x hx)
  exact ⟨h1, h2, h5, h6⟩

theorem segsData_good (segs : List String) (hg : ∀ x ∈ segs, goodSeg x.data = true) :
    ∀ a ∈ segs.map String.data, a ≠ [] ∧ '/' ∉ a ∧ a ≠ ['.'] ∧ a ≠ ['.', '.'] := by
  intro a ha
  obtain ⟨x, hx, rfl⟩ := List.mem_map.mp ha
  obtain ⟨h1, h2, _, _, h5, h6⟩ := goodSeg_props (hg x hx)
  exact ⟨h1, h2, h5, h6⟩

theorem posixJoin_ne (a b : String) (ha : a ≠ "") (hb : b ≠ "") :
    posixJoin a b = posixNormalize (a ++ "/" ++ b) := by
  simp [posixJoin, ha, hb]

theorem posixJoin_cd_slug (segs : List String) (hn : segs ≠ [])
    (hg : ∀ x ∈ segs, goodSeg x.data = true) :
    posixJoin normalizedContentDir (slugOf segs) = contentDirStr ++ "/" ++ slugOf segs := by
  have hne := slugOf_ne_empty segs hn hg
  rw [posixJoin_ne _ _ (by rw [normalizedContentDir_eq]; decide) hne]
  have hsame : normalizedContentDir = contentDirStr := by
    rw [normalizedContentDir_eq, contentDirStr_eq]
  rw [hsame]
  show String.mk (normPath (contentDirStr ++ "/" ++ slugOf segs).data)
      = contentDirStr ++ "/" ++ slugOf segs
  rw [contentPath_data segs hn,
    normPath_abs_good _ (by simp) (contentSegs_good segs hg),
    ← contentPath_data segs hn]

theorem good_append_md (a : List Char)
    (h : a ≠ [] ∧ '/' ∉ a ∧ a ≠ ['.'] ∧ a ≠ ['.', '.']) :
    (a ++ ".md".data) ≠ [] ∧ '/' ∉ (a ++ ".md".data) ∧
      (a ++ ".md".data) ≠ ['.'] ∧ (a ++ ".md".data) ≠ ['.', '.'] := by
  obtain ⟨h1, h2, _, _⟩ := h
  refine ⟨by simp, ?_, ?_, ?_⟩
  · intro hc
    rcases List.mem_append.mp hc with hc | hc
    · exact h2 hc
    · exact absurd hc (by decide)
  · intro hc
    have := congrArg List.length hc
    simp at this
  · intro hc
    have := congrArg List.length hc
    simp at this

theorem mdCandidate_slugOf (segs : List String) (hn : segs ≠ [])
    (hg : ∀ x ∈ segs, goodSeg x.data = true) :
    mdCandidate (slugOf segs) = contentDirStr ++ "/" ++ slugOf segs ++ ".md" := by
  rw [mdCandidate, posixJoin_cd_slug segs hn hg]
  have hd : (contentDirStr ++ "/" ++ slugOf segs ++ ".md").data
      = '/' :: joinSegs (appLast ".md".data
          ("@site".data :: "content".data :: segs.map String.data)) := by
    have h1 : (contentDirStr ++ "/" ++ slugOf segs ++ ".md").data
        = (contentDirStr ++ "/" ++ slugOf segs).data ++ ".md".data :=
      String.data_append _ _
    rw [h1, contentPath_data segs hn, List.cons_append,
      joinSegs_append_last _ _ (by simp)]
  show String.mk (normPath (contentDirStr ++ "/" ++ slugOf segs ++ ".md").data)
      = contentDirStr ++ "/" ++ slugOf segs ++ ".md"
  rw [hd, normPath_abs_good _ (appLast_ne_nil _ _ (by simp))
    (appLast_forall _ _ (contentSegs_good segs hg) good_append_md), ← hd]

theorem idxCandidate_slugOf (segs : List String) (hn : segs ≠ [])
    (hg : ∀ x ∈ segs, goodSeg x.data = true) :
    idxCandidate (slugOf segs) = contentDirStr ++ "/" ++ slugOf segs ++ "/index.md" := by
  have hbase_ne : contentDirStr ++ "/" ++ slugOf segs ≠ "" := by
    intro hc
    have := congrArg String.data hc
    rw [contentPath_data segs hn] at this
    exact absurd this (by simp)
  rw [idxCandidate, posixJoin_cd_slug segs hn hg,
    posixJoin_ne _ _ hbase_ne (by decide)]
  have hd : (contentDirStr ++ "/" ++ slugOf segs ++ "/" ++ "index.md").data
      = '/' :: joinSegs (("@site".data :: "content".data :: segs.map String.data)
          ++ ["index.md".data]) := by
    have h1 : (contentDirStr ++ "/" ++ slugOf segs ++ "/" ++ "index.md").data
        = (contentDirStr ++ "/" ++ slugOf segs).data ++ '/' :: "index.md".data := by
      rw [String.data_append, String.data_append, List.append_assoc]
      rfl
    rw [h1, contentPath_data segs hn, joinSegs_concat _ _ (by simp), List.cons_append]
  have hgood : ∀ a ∈ (("@site".data :: "content".data :: segs.map String.data)
      ++ ["index.md".data]), a ≠ [] ∧ '/' ∉ a ∧ a ≠ ['.'] ∧ a ≠ ['.', '.'] := by
    intro a ha
    rcases List.mem_append.mp ha with ha | ha
    · exact contentSegs_good segs hg a ha
    · rw [List.mem_singleton.mp ha]
      exact ⟨by decide, by decide, by decide, by decide⟩
  show String.mk (normPath (contentDirStr ++ "/" ++ slugOf segs ++ "/" ++ "index.md").data)
      = contentDirStr ++ "/" ++ slugOf segs ++ "/index.md"
  rw [hd, normPath_abs_good _ (by simp) hgood, ← hd]
  rw [String.append_assoc (contentDirStr ++ "/" ++ slugOf segs) "/" "index.md"]
  rfl

theorem posixJoin_slug_index (segs : List String) (hn : segs ≠ [])
    (hg : ∀ x ∈ segs, goodSeg x.data = true) :
    posixJoin (slugOf segs) "index.md" = slugOf segs ++ "/index.md" := by
  rw [posixJoin_ne _ _ (slugOf_ne_empty segs hn hg) (by decide)]
  have hd : (slugOf segs ++ "/" ++ "index.md").data
      = joinSegs (segs.map String.data ++ ["index.md".data]) := by
    have h1 : (slugOf segs ++ "/" ++ "index.md").data
        = (slugOf segs).data ++ '/' :: "index.md".data := by
      rw [String.data_append, String.data_append, List.append_assoc]
      rfl
    rw [h1, slugOf_data, joinSegs_concat _ _ (by simpa using hn)]
  have hgood : ∀ a ∈ (segs.map String.data ++ ["index.md".data]),
      a ≠ [] ∧ '/' ∉ a ∧ a ≠ ['.'] ∧ a ≠ ['.', '.'] := by
    intro a ha
    rcases List.mem_append.mp ha with ha | ha
    · exact segsData_good segs hg a ha
    · rw [List.mem_singleton.mp ha]
      exact ⟨by decide, by decide, by decide, by decide⟩
  show String.mk (normPath (slugOf segs ++ "/" ++ "index.md").data)
      = slugOf segs ++ "/index.md"
  rw [hd, normPath_rel_good _ (by simp) hgood, ← hd]
  rw [String.append_assoc]
  rfl

/-! ## Page Loader lemmas and claims -/

theorem loadPage_md_branch (fs : FS) (p : String) (f : FileData)
    (hf : List.lookup (mdCandidate (resolvedRelative p)) fs = some f) :
    loadPage fs p = Except.ok
      { key := (strSplitSlash (resolvedRelative p)).getLastD ""
        href := "/" ++ replaceBackslashes (resolvedRelative p)
        title := f.data.title
        menuTitle := jsOrStr f.data.menu f.data.title
        mdPath := replaceBackslashes (resolvedRelative p ++ ".md")
        data := f.data
        body := f.content
        description := jsOrStr f.data.description none
        prev := none
        next := none } := by
  simp only [loadPage, hf]

theorem loadPage_idx_branch (fs : FS) (p : String) (g : FileData)
    (hmd : List.lookup (mdCandidate (resolvedRelative p)) fs = none)
    (hidx : List.lookup (idxCandidate (resolvedRelative p)) fs = some g) :
    loadPage fs p = Except.ok
      { key := (strSplitSlash (resolvedRelative p)).getLastD ""
        href := "/" ++ replaceBackslashes (resolvedRelative p)
        title := g.data.title
        menuTitle := jsOrStr g.data.menu g.data.title
        mdPath := replaceBackslashes (posixJoin (resolvedRelative p) "index.md")
        data := g.data
        body := g.content
        description := jsOrStr g.data.description none
        prev := none
        next := none } := by
  simp only [loadPage, hmd, hidx]

theorem loadPage_error_branch (fs : FS) (p : String)
    (hmd : List.lookup (mdCandidate (resolvedRelative p)) fs = none)
    (hidx : List.lookup (idxCandidate (resolvedRelative p)) fs = none) :
    loadPage fs p = Except.error ("ENOENT: no such file or directory, tried '"
      ++ mdCandidate (resolvedRelative p) ++ "' and '"
      ++ idxCandidate (resolvedRelative p) ++ "'") := by
  simp only [loadPage, hmd, hidx]

theorem slug_no_backslash_md (segs : List String)
    (hg : ∀ x ∈ segs, goodSeg x.data = true) :
    '\\' ∉ (slugOf segs ++ ".md").data := by
  rw [String.data_append]
  intro hc
  rcases List.mem_append.mp hc with hc | hc
  · exact slugOf_no_backslash segs hg hc
  · exact absurd hc (by decide)

/-- C4: for every content path for which neither rel.md nor rel/index.md
exists in the content tree, loadPage's result is an error whose message
names both attempted file paths; the error is the whole call's result, so it
propagates to the caller (nothing is retried or recovered locally). -/
theorem loadPage_missing_both (fs : FS) (p : String)
    (hmd : List.lookup (mdCandidate (resolvedRelative p)) fs = none)
    (hidx : List.lookup (idxCandidate (resolvedRelative p)) fs = none) :
    loadPage fs p = Except.error ("ENOENT: no such file or directory, tried '"
      ++ mdCandidate (resolvedRelative p) ++ "' and '"
      ++ idxCandidate (resolvedRelative p) ++ "'") :=
  loadPage_error_branch fs p hmd hidx

/-- Witness for C4 at the spec's example input: loading nonexistent/page
from an empty content tree reports both attempted paths. -/
theorem loadPage_missing_both_witness :
    loadPage [] "nonexistent/page" = Except.error ("ENOENT: no such file or directory, tried '/@site/content/nonexistent/page.md' and '/@site/content/nonexistent/page/index.md'") := by
  have h := loadPage_missing_both [] "nonexistent/page" rfl rfl
  rw [h]
  rfl

/-- C6: for every valid root-relative slug, when the direct file slug.md is
present loadPage reads it (mdPath is the forward-slash form slug.md and the
body is that file's content) no matter whether slug/index.md also exists;
slug/index.md is read only when slug.md is absent. -/
theorem loadPage_prefers_md (fs : FS) (segs : List String) (hn : segs ≠ [])
    (hg : ∀ x ∈ segs, goodSeg x.data = true) :
    (∀ f, List.lookup (contentDirStr ++ "/" ++ slugOf segs ++ ".md") fs = some f →
      ∃ r, loadPage fs (slugOf segs) = Except.ok r ∧
        r.mdPath = slugOf segs ++ ".md" ∧ r.body = f.content ∧ r.data = f.data) ∧
    (∀ g, List.lookup (contentDirStr ++ "/" ++ slugOf segs ++ ".md") fs = none →
      List.lookup (contentDirStr ++ "/" ++ slugOf segs ++ "/index.md") fs = some g →
      ∃ r, loadPage fs (slugOf segs) = Except.ok r ∧
        r.mdPath = slugOf segs ++ "/index.md" ∧ r.body = g.content ∧ r.data = g.data) := by
  have hres := resolvedRelative_slugOf segs hn hg
  have hmdc := mdCandidate_slugOf segs hn hg
  have hidxc := idxCandidate_slugOf segs hn hg
  constructor
  · intro f hf
    have heq := loadPage_md_branch fs (slugOf segs) f (by rw [hres, hmdc]; exact hf)
    refine ⟨_, heq, ?_, rfl, rfl⟩
    show replaceBackslashes (resolvedRelative (slugOf segs) ++ ".md") = slugOf segs ++ ".md"
    rw [hres]
    exact replaceBackslashes_id _ (slug_no_backslash_md segs hg)
  · intro g hnone hsome
    have heq := loadPage_idx_branch fs (slugOf segs) g
      (by rw [hres, hmdc]; exact hnone) (by rw [hres, hidxc]; exact hsome)
    refine ⟨_, heq, ?_, rfl, rfl⟩
    show replaceBackslashes (posixJoin (resolvedRelative (slugOf segs)) "index.md")
        = slugOf segs ++ "/index.md"
    rw [hres, posixJoin_slug_index segs hn hg]
    apply replaceBackslashes_id
    rw [String.data_append]
    intro hc
    rcases List.mem_append.mp hc with hc | hc
    · exact slugOf_no_backslash segs hg hc
    · exact absurd hc (by decide)

/-- Witness for C6: with both tokio/tutorial.md and tokio/tutorial/index.md
present, loadPage returns the direct file. -/
theorem loadPage_prefers_md_witness :
    ∃ r, loadPage fsDemo (slugOf ["tokio", "tutorial"]) = Except.ok r ∧
      r.mdPath = slugOf ["tokio", "tutorial"] ++ ".md" ∧
      r.body = (fdOf "T" 0).content ∧ r.data = (fdOf "T" 0).data :=
  (loadPage_prefers_md fsDemo ["tokio", "tutorial"] (by decide) (by decide)).1
    (fdOf "T" 0) (by rfl)

/-- C7: for every valid root-relative slug with a backing file, the loaded
page's href is "/" followed by the slug (forward slashes), and feeding the
href with its leading slash stripped back into loadPage reproduces the same
mdPath. -/
theorem loadPage_href_roundtrip (fs : FS) (segs : List String) (hn : segs ≠ [])
    (hg : ∀ x ∈ segs, goodSeg x.data = true) (r : PageRecord)
    (hld : loadPage fs (slugOf segs) = Except.ok r) :
    r.href = "/" ++ slugOf segs ∧
      ∀ r2, loadPage fs (stripLeadingSlash r.href) = Except.ok r2 →
        r2.mdPath = r.mdPath := by
  have hres := resolvedRelative_slugOf segs hn hg
  have hrb : replaceBackslashes (slugOf segs) = slugOf segs :=
    replaceBackslashes_id _ (slugOf_no_backslash segs hg)
  have hhref : r.href = "/" ++ slugOf segs := by
    rcases hl1 : List.lookup (mdCandidate (resolvedRelative (slugOf segs))) fs with _ | f
    · rcases hl2 : List.lookup (idxCandidate (resolvedRelative (slugOf segs))) fs with _ | g
      · rw [loadPage_error_branch fs _ hl1 hl2] at hld
        cases hld
      · rw [loadPage_idx_branch fs _ g hl1 hl2] at hld
        cases hld
        show "/" ++ replaceBackslashes (resolvedRelative (slugOf segs)) = "/" ++ slugOf segs
        rw [hres, hrb]
    · rw [loadPage_md_branch fs _ f hl1] at hld
      cases hld
      show "/" ++ replaceBackslashes (resolvedRelative (slugOf segs)) = "/" ++ slugOf segs
      rw [hres, hrb]
  have hstrip : stripLeadingSlash r.href = slugOf segs := by
    rw [hhref]
    show String.mk (("/" ++ slugOf segs).data.tail) = slugOf segs
    rw [String.data_append]
    rfl
  refine ⟨hhref, fun r2 h2 => ?_⟩
  rw [hstrip, hld] at h2
  cases h2
  rfl

/-- Witness for C7 at the slug tokio/tutorial. -/
theorem loadPage_href_roundtrip_witness :
    ∃ r, loadPage fsDemo (slugOf ["tokio", "tutorial"]) = Except.ok r ∧
      r.href = "/" ++ slugOf ["tokio", "tutorial"] ∧
      ∀ r2, loadPage fsDemo (stripLeadingSlash r.href) = Except.ok r2 →
        r2.mdPath = r.mdPath := by
  have hr := loadPage_md_branch fsDemo (slugOf ["tokio", "tutorial"]) (fdOf "T" 0) (by rfl)
  obtain ⟨h1, h2⟩ :=
    loadPage_href_roundtrip fsDemo ["tokio", "tutorial"] (by decide) (by decide) _ hr
  exact ⟨_, hr, h1, h2⟩

/-! ## Menu Normalizer lemmas and claims -/

theorem strEq_of_data {a b : String} (h : a.data = b.data) : a = b := by
  cases a
  cases b
  exact congrArg String.mk h

theorem slugOf_two (a b : String) : slugOf [a, b] = a ++ "/" ++ b := by
  apply strEq_of_data
  rw [slugOf_data, String.data_append, String.data_append]
  show joinSegs [a.data, b.data] = a.data ++ "/".data ++ b.data
  rw [List.append_assoc]
  rfl

theorem slugOf_three (a b c : String) : slugOf [a, b, c] = a ++ "/" ++ b ++ "/" ++ c := by
  apply strEq_of_data
  rw [slugOf_data, String.data_append, String.data_append, String.data_append,
    String.data_append]
  show joinSegs [a.data, b.data, c.data]
      = a.data ++ "/".data ++ b.data ++ "/".data ++ c.data
  simp only [List.append_assoc]
  rfl

theorem strSplitSlash_slugOf (segs : List String) (hn : segs ≠ [])
    (hg : ∀ x ∈ segs, goodSeg x.data = true) :
    strSplitSlash (slugOf segs) = segs := by
  rw [strSplitSlash, slugOf_data,
    splitSegs_joinSegs _ (fun a ha => by
      obtain ⟨x, hx, rfl⟩ := List.mem_map.mp ha
      exact (goodSeg_props (hg x hx)).2.1) (by simpa using hn),
    List.map_map]
  have hid : ∀ x ∈ segs, (String.mk ∘ String.data) x = x := fun x _ => rfl
  rw [List.map_congr_left hid]
  simp

theorem ebind_ok {α β : Type} {x : Except String α} {f : α → Except String β} {b : β}
    (h : x >>= f = Except.ok b) : ∃ a, x = Except.ok a ∧ f a = Except.ok b := by
  cases x with
  | error e => exact absurd h (by simp [Bind.bind, Except.bind])
  | ok a => exact ⟨a, rfl, h⟩

theorem ebind_isOk_false {α β : Type} (x : Except String α) (f : α → Except String β)
    (h : ∀ a, (f a).isOk = false) : (x >>= f).isOk = false := by
  cases x with
  | error e => rfl
  | ok a => exact h a

theorem ebind_isOk_false_left {α β : Type} (x : Except String α) (f : α → Except String β)
    (h : x.isOk = false) : (x >>= f).isOk = false := by
  cases x with
  | error e => rfl
  | ok a => exact absurd h (by simp [Except.isOk, Except.toBool])

theorem loadMenuPage_ok (fs : FS) (p : String) (mp : MenuPage)
    (h : loadMenuPage fs p = Except.ok mp) :
    ∃ page, loadPage fs p = Except.ok page ∧
      mp = { key := page.key, href := page.href, title := page.menuTitle,
             menuTitle := none, data := some page.data } := by
  rw [loadMenuPage] at h
  obtain ⟨page, hpage, hpure⟩ := ebind_ok h
  cases hpure
  exact ⟨page, hpage, rfl⟩

theorem loadPage_ok_key (fs : FS) (segs : List String) (hn : segs ≠ [])
    (hg : ∀ x ∈ segs, goodSeg x.data = true) (page : PageRecord)
    (h : loadPage fs (slugOf segs) = Except.ok page) : page.key = segs.getLastD "" := by
  have hres := resolvedRelative_slugOf segs hn hg
  have hsplit := strSplitSlash_slugOf segs hn hg
  rcases hl1 : List.lookup (mdCandidate (resolvedRelative (slugOf segs))) fs with _ | f
  · rcases hl2 : List.lookup (idxCandidate (resolvedRelative (slugOf segs))) fs with _ | g
    · rw [loadPage_error_branch fs _ hl1 hl2] at h
      cases h
    · rw [loadPage_idx_branch fs _ g hl1 hl2] at h
      cases h
      show (strSplitSlash (resolvedRelative (slugOf segs))).getLastD "" = segs.getLastD ""
      rw [hres, hsplit]
  · rw [loadPage_md_branch fs _ f hl1] at h
    cases h
    show (strSplitSlash (resolvedRelative (slugOf segs))).getLastD "" = segs.getLastD ""
    rw [hres, hsplit]

theorem loadMenuPage_ok_key (fs : FS) (segs : List String) (hn : segs ≠ [])
    (hg : ∀ x ∈ segs, goodSeg x.data = true) (mp : MenuPage)
    (h : loadMenuPage fs (slugOf segs) = Except.ok mp) :
    mp.key = segs.getLastD "" ∧ mp.data.isSome = true := by
  obtain ⟨page, hpage, rfl⟩ := loadMenuPage_ok fs _ mp h
  exact ⟨loadPage_ok_key fs segs hn hg page hpage, rfl⟩

theorem mapM_forall₂ {α β : Type} (f : α → Except String β) (P : α → β → Prop) :
    ∀ (l : List α), (∀ a ∈ l, ∀ b, f a = Except.ok b → P a b) →
      ∀ out, l.mapM f = Except.ok out → List.Forall₂ P l out := by
  intro l
  induction l with
  | nil =>
    intro _ out h
    rw [List.mapM_nil] at h
    cases h
    exact List.Forall₂.nil
  | cons a l ih =>
    intro hf out h
    rw [List.mapM_cons] at h
    obtain ⟨b, hb, h2⟩ := ebind_ok h
    obtain ⟨rest, hrest, h3⟩ := ebind_ok h2
    cases h3
    exact List.Forall₂.cons (hf a (List.mem_cons_self a l) b hb)
      (ih (fun x hx => hf x (List.mem_cons_of_mem a hx)) rest hrest)

/-- C8: normalize walks the sitemap in declaration order and emits one
MenuEntry per key: the output entries' keys equal the input keys position by
position, and for a list-shaped section the nested entries' keys equal the
child-key list position by position. -/
theorem normalize_preserves_order (fs : FS) (menu : List (String × SEntry))
    (root : String) (hroot : goodSeg root.data = true)
    (hkeys : ∀ kv ∈ menu, goodSeg (kv.1 : String).data = true ∧
      ∀ c ∈ SEntry.childKeys kv.2, goodSeg c.data = true) :
    ∀ out, normalize fs menu root = Except.ok out →
    List.Forall₂ (fun kv e =>
      (∃ p, MenuEntry.page e = some p ∧ p.key = kv.1) ∧
      (∀ t ks, kv.2 = SEntry.sec t ks →
        List.Forall₂ (fun c e2 => ∃ q, MenuEntry.page e2 = some q ∧ q.key = c)
          ks (MenuEntry.nested e))) menu out := by
  induction menu with
  | nil =>
    intro out h
    simp only [normalize] at h
    cases h
    exact List.Forall₂.nil
  | cons kv rest ih =>
    obtain ⟨l1, v⟩ := kv
    intro out h
    have hl1good := (hkeys (l1, v) (List.mem_cons_self _ _)).1
    have hg2 : ∀ x ∈ [root, l1], goodSeg x.data = true := by
      intro x hx
      simp only [List.mem_cons, List.not_mem_nil, or_false] at hx
      rcases hx with rfl | rfl
      exacts [hroot, hl1good]
    have ihx := ih (fun x hx => hkeys x (List.mem_cons_of_mem _ hx))
    cases v with
    | link hv tv =>
      simp only [normalize] at h
      by_cases hh : hv ≠ ""
      · rw [if_pos hh] at h
        obtain ⟨y, hy, h2⟩ := ebind_ok h
        cases hy
        obtain ⟨restOut, hrest, h3⟩ := ebind_ok h2
        cases h3
        refine List.Forall₂.cons ⟨⟨_, rfl, rfl⟩, ?_⟩ (ihx restOut hrest)
        intro t' ks' hcontra
        exact SEntry.noConfusion hcontra
      · rw [if_neg hh] at h
        obtain ⟨mp, hmp, h2⟩ := ebind_ok h
        obtain ⟨y, hy, h3⟩ := ebind_ok h2
        cases hy
        obtain ⟨restOut, hrest, h4⟩ := ebind_ok h3
        cases h4
        rw [← slugOf_two root l1] at hmp
        obtain ⟨hkey, _⟩ := loadMenuPage_ok_key fs [root, l1] (by simp) hg2 mp hmp
        refine List.Forall₂.cons ⟨⟨mp, rfl, hkey⟩, ?_⟩ (ihx restOut hrest)
        intro t' ks' hcontra
        exact SEntry.noConfusion hcontra
    | leaf tv =>
      simp only [normalize] at h
      obtain ⟨mp, hmp, h2⟩ := ebind_ok h
      obtain ⟨y, hy, h3⟩ := ebind_ok h2
      cases hy
      obtain ⟨restOut, hrest, h4⟩ := ebind_ok h3
      cases h4
      rw [← slugOf_two root l1] at hmp
      obtain ⟨hkey, _⟩ := loadMenuPage_ok_key fs [root, l1] (by simp) hg2 mp hmp
      refine List.Forall₂.cons ⟨⟨mp, rfl, hkey⟩, ?_⟩ (ihx restOut hrest)
      intro t' ks' hcontra
      exact SEntry.noConfusion hcontra
    | sec tv ks =>
      simp only [normalize] at h
      obtain ⟨sub, hsub, h2⟩ := ebind_ok h
      obtain ⟨mp, hmp, h3⟩ := ebind_ok h2
      obtain ⟨y, hy, h4⟩ := ebind_ok h3
      cases hy
      obtain ⟨restOut, hrest, h5⟩ := ebind_ok h4
      cases h5
      rw [← slugOf_two root l1] at hmp
      obtain ⟨hkey, _⟩ := loadMenuPage_ok_key fs [root, l1] (by simp) hg2 mp hmp
      refine List.Forall₂.cons ⟨⟨mp, rfl, hkey⟩, ?_⟩ (ihx restOut hrest)
      intro t' ks' hsec
      injection hsec with ht hks
      subst hks
      show List.Forall₂ _ ks sub
      refine mapM_forall₂ _ _ ks ?_ sub hsub
      intro c hcmem e2 hc
      have hcg : goodSeg c.data = true :=
        (hkeys (l1, SEntry.sec tv ks) (List.mem_cons_self _ _)).2 c hcmem
      obtain ⟨q, hq, hpure2⟩ := ebind_ok hc
      cases hpure2
      rw [← slugOf_three root l1 c] at hq
      obtain ⟨hkey2, _⟩ := loadMenuPage_ok_key fs [root, l1, c] (by simp)
        (by intro x hx
            simp only [List.mem_cons, List.not_mem_nil, or_false] at hx
            rcases hx with rfl | rfl | rfl
            exacts [hroot, hl1good, hcg]) q hq
      exact ⟨q, rfl, hkey2⟩
    | group tv m =>
      simp only [normalize] at h
      exact absurd h (by simp [Bind.bind, Except.bind])

/-- Witness for C8: normalizing the demo section keeps keys a, b (with
children c, d) and e in declaration order. -/
theorem normalize_preserves_order_witness :
    ∃ out, normalize fsDemo menuDemo "r" = Except.ok out ∧
      List.Forall₂ (fun kv e =>
        (∃ p, MenuEntry.page e = some p ∧ p.key = kv.1) ∧
        (∀ t ks, kv.2 = SEntry.sec t ks →
          List.Forall₂ (fun c e2 => ∃ q, MenuEntry.page e2 = some q ∧ q.key = c)
            ks (MenuEntry.nested e))) menuDemo out := by
  rcases hcase : normalize fsDemo menuDemo "r" with e | out
  · have hok : (normalize fsDemo menuDemo "r").isOk = true := by rfl
    rw [hcase] at hok
    exact absurd hok (by simp [Except.isOk, Except.toBool])
  · exact ⟨out, rfl,
      normalize_preserves_order fsDemo menuDemo "r" (by decide) (by decide) out hcase⟩

/-- Counterexample for C3: a key whose nested value is a further SitemapNode
mapping is not recursed into; normalize fails on it even though the deeper
pages exist on disk, so no MenuEntry nodes are produced for the deeper tree. -/
theorem normalize_group_counterexample :
    normalize fsDemo [("b", SEntry.group none [("c", SEntry.leaf none)])] "r"
      = Except.error normalizeErrMsg := by rfl

/-- C3 amended: a key whose nested value is a further SitemapNode mapping
makes normalize fail (the source iterates the nested value with for..of,
which throws on a mapping); normalize recurses only through list-shaped
nesting, and mapping-shaped nesting is handled only by collectPaths. -/
theorem normalize_group_fails (fs : FS) (root : String) :
    ∀ menu : List (String × SEntry), (∃ k t m, (k, SEntry.group t m) ∈ menu) →
      (normalize fs menu root).isOk = false := by
  intro menu
  induction menu with
  | nil =>
    rintro ⟨k, t, m, hmem⟩
    cases hmem
  | cons kv rest ih =>
    rintro ⟨k, t, m, hmem⟩
    obtain ⟨l1, v⟩ := kv
    rcases List.mem_cons.mp hmem with heq | hmem'
    · injection heq with h1 h2
      subst h2
      rfl
    · have hrestf : (normalize fs rest root).isOk = false := ih ⟨k, t, m, hmem'⟩
      cases v with
      | link hv tv =>
        simp only [normalize]
        by_cases hh : hv ≠ ""
        · rw [if_pos hh]
          exact ebind_isOk_false _ _ (fun y => ebind_isOk_false_left _ _ hrestf)
        · rw [if_neg hh]
          exact ebind_isOk_false _ _ (fun p => ebind_isOk_false _ _
            (fun y => ebind_isOk_false_left _ _ hrestf))
      | leaf tv =>
        simp only [normalize]
        exact ebind_isOk_false _ _ (fun p => ebind_isOk_false _ _
          (fun y => ebind_isOk_false_left _ _ hrestf))
      | sec tv ks =>
        simp only [normalize]
        exact ebind_isOk_false _ _ (fun sub => ebind_isOk_false _ _ (fun p =>
          ebind_isOk_false _ _ (fun y => ebind_isOk_false_left _ _ hrestf)))
      | group tv m2 =>
        rfl

/-- Witness for the amended C3 at a concrete mapping-shaped sitemap. -/
theorem normalize_group_fails_witness :
    (normalize fsDemo [("b", SEntry.group none [("c", SEntry.leaf none)])] "r").isOk
      = false :=
  normalize_group_fails fsDemo "r" _ ⟨"b", none, [("c", SEntry.leaf none)], by simp⟩

/-! ## Path Collector lemmas and claims -/

theorem sitemap_rec (P : List (String × SEntry) → Prop) (h0 : P [])
    (hlink : ∀ k h t rest, P rest → P ((k, SEntry.link h t) :: rest))
    (hleaf : ∀ k t rest, P rest → P ((k, SEntry.leaf t) :: rest))
    (hsec : ∀ k t ks rest, P rest → P ((k, SEntry.sec t ks) :: rest))
    (hgroup : ∀ k t m rest, P m → P rest → P ((k, SEntry.group t m) :: rest)) :
    ∀ l, P l := by
  have key : ∀ n l, sizeOf l ≤ n → P l := by
    intro n
    induction n with
    | zero =>
      intro l hl
      cases l with
      | nil => exact h0
      | cons kv rest =>
        exfalso
        simp only [List.cons.sizeOf_spec] at hl
        omega
    | succ n ihn =>
      intro l hl
      cases l with
      | nil => exact h0
      | cons kv rest =>
        obtain ⟨k, v⟩ := kv
        simp only [List.cons.sizeOf_spec, Prod.mk.sizeOf_spec] at hl
        cases v with
        | link h t => exact hlink k h t rest (ihn rest (by omega))
        | leaf t => exact hleaf k t rest (ihn rest (by omega))
        | sec t ks => exact hsec k t ks rest (ihn rest (by omega))
        | group t m =>
          have hm : sizeOf m ≤ n := by
            simp only [SEntry.group.sizeOf_spec] at hl
            omega
          exact hgroup k t m rest (ihn m hm) (ihn rest (by omega))
  exact fun l => key (sizeOf l) l le_rfl

theorem collectPaths_singleton_leaf (p pre : String) :
    collectPaths [(p, SEntry.leaf none)] pre = [pre ++ "/" ++ p] := by
  simp [collectPaths, SEntry.hrefTruthy]

theorem flatten_map_singleton {α β : Type} (g : α → β) (l : List α) :
    (l.map (fun x => [g x])).flatten = l.map g := by
  induction l with
  | nil => rfl
  | cons a l ih => simp [ih]

theorem collectPaths_eq_spec :
    ∀ level : List (String × SEntry), wfHrefs level = true →
      ∀ pre, collectPaths level pre = specRoutablePaths level pre := by
  refine sitemap_rec (fun level => wfHrefs level = true →
    ∀ pre, collectPaths level pre = specRoutablePaths level pre) ?_ ?_ ?_ ?_ ?_
  · intro _ pre
    simp [collectPaths, specRoutablePaths]
  · intro k h t rest ih hwf pre
    simp only [wfHrefs, Bool.and_eq_true, decide_eq_true_eq] at hwf
    simp [collectPaths, specRoutablePaths, SEntry.hrefTruthy, ih hwf.2 pre, hwf.1]
  · intro k t rest ih hwf pre
    simp only [wfHrefs] at hwf
    simp [collectPaths, specRoutablePaths, SEntry.hrefTruthy, ih hwf pre]
  · intro k t ks rest ih hwf pre
    simp only [wfHrefs] at hwf
    have hfm : (List.map (fun p => [pre ++ "/" ++ k ++ "/" ++ p]) ks).flatten
        = List.map (fun c => pre ++ "/" ++ k ++ "/" ++ c) ks :=
      flatten_map_singleton (fun c => pre ++ "/" ++ k ++ "/" ++ c) ks
    simp [collectPaths, specRoutablePaths, SEntry.hrefTruthy, ih hwf pre, hfm]
  · intro k t m rest ihm ih hwf pre
    simp only [wfHrefs, Bool.and_eq_true] at hwf
    simp [collectPaths, specRoutablePaths, SEntry.hrefTruthy, ih hwf.2 pre,
      ihm hwf.1 (pre ++ "/" ++ k)]

/-- C2: getMenuPaths emits exactly the routable slugs of the spec's
description (one per node that is not an external link, recursing into both
list-shaped and mapping-shaped nesting with a slash-joined prefix), each
split on "/" with the leading (empty) piece dropped, wrapped with fallback
disabled. -/
theorem getMenuPaths_spec (menu : List (String × SEntry)) (hwf : wfHrefs menu = true) :
    getMenuPaths menu =
      { paths := (specRoutablePaths menu "").map (fun slug =>
          { params := { slug := (strSplitSlash slug).drop 1 } })
        fallback := false } := by
  simp only [getMenuPaths, collectPaths_eq_spec menu hwf ""]

/-- Witness for C2: the demo sitemap's external link emits no path while its
siblings do. -/
theorem getMenuPaths_spec_witness :
    wfHrefs smDemo = true ∧
      getMenuPaths smDemo =
        { paths := (specRoutablePaths smDemo "").map (fun slug =>
            { params := { slug := (strSplitSlash slug).drop 1 } })
          fallback := false } := by
  have hwf : wfHrefs smDemo = true := by
    simp only [smDemo, wfHrefs]
    decide
  exact ⟨hwf, getMenuPaths_spec smDemo hwf⟩

/-! ## Prev/Next Linker: traversal engine lemmas -/

theorem pageProp_none (ps : Option MenuPage) : ps.bind MenuPage.pageProp = none := by
  cases ps <;> rfl

theorem jsOrPage_none (prev : Option MenuPage) : jsOrPage prev none = prev := by
  cases prev <;> rfl

theorem menu_ind (P : List MenuEntry → Prop) (h0 : P [])
    (h1 : ∀ k t pg nested rest, P nested → P rest →
      P (MenuEntry.mk k t pg nested :: rest)) : ∀ m, P m := by
  have key : ∀ n m, sizeOf m ≤ n → P m := by
    intro n
    induction n with
    | zero =>
      intro m hm
      cases m with
      | nil => exact h0
      | cons e rest =>
        exfalso
        simp only [List.cons.sizeOf_spec] at hm
        omega
    | succ n ihn =>
      intro m hm
      cases m with
      | nil => exact h0
      | cons e rest =>
        obtain ⟨k, t, pg, nested⟩ := e
        simp only [List.cons.sizeOf_spec, MenuEntry.mk.sizeOf_spec] at hm
        exact h1 k t pg nested rest (ihn nested (by omega)) (ihn rest (by omega))
  exact fun m => key (sizeOf m) m le_rfl

theorem visitPairs_nil (prev : Option MenuPage) : visitPairs [] prev = [] := by
  simp [visitPairs]

theorem visitPairs_cons_data (k t : Option String) (p : MenuPage)
    (nested rest : List MenuEntry) (prev : Option MenuPage) (hp : p.data.isSome = true) :
    visitPairs (MenuEntry.mk k t (some p) nested :: rest) prev
      = (p, prev) :: (visitPairs nested (some p) ++ visitPairs rest (some p)) := by
  simp [visitPairs, hp]

theorem visitPairs_cons_nodata (k t : Option String) (p : MenuPage)
    (nested rest : List MenuEntry) (prev : Option MenuPage) (hp : p.data.isSome = false) :
    visitPairs (MenuEntry.mk k t (some p) nested :: rest) prev
      = visitPairs nested (some p) ++ visitPairs rest prev := by
  simp [visitPairs, hp]

theorem visitPairs_cons_nopage (k t : Option String) (nested rest : List MenuEntry)
    (prev : Option MenuPage) :
    visitPairs (MenuEntry.mk k t none nested :: rest) prev
      = visitPairs nested none ++ visitPairs rest prev := by
  simp [visitPairs]

theorem visitedPages_nil : visitedPages [] = [] := by
  simp [visitedPages]

theorem visitedPages_cons (k t : Option String) (pg : Option MenuPage)
    (nested rest : List MenuEntry) :
    visitedPages (MenuEntry.mk k t pg nested :: rest)
      = (match pg with
         | some p => if p.data.isSome then [p] else []
         | none => []) ++ visitedPages nested ++ visitedPages rest := by
  rw [visitedPages.eq_def]

theorem eachPageLoop_nil {σ : Type} (f : σ → MenuPage → Option MenuPage → σ)
    (prev prevSection : Option MenuPage) (s : σ) :
    eachPageLoop f [] prev prevSection s = (s, prev) := by
  simp [eachPageLoop]

theorem eachPageLoop_cons_data {σ : Type} (f : σ → MenuPage → Option MenuPage → σ)
    (k t : Option String) (p : MenuPage) (nested rest : List MenuEntry)
    (prev prevSection : Option MenuPage) (s : σ) (hp : p.data.isSome = true) :
    eachPageLoop f (MenuEntry.mk k t (some p) nested :: rest) prev prevSection s
      = eachPageLoop f rest (some p) prevSection
          (eachPageLoop f nested (some p) (some p)
            (f s p (jsOrPage prev (prevSection.bind MenuPage.pageProp)))).1 := by
  simp [eachPageLoop, hp]

theorem eachPageLoop_cons_nodata {σ : Type} (f : σ → MenuPage → Option MenuPage → σ)
    (k t : Option String) (p : MenuPage) (nested rest : List MenuEntry)
    (prev prevSection : Option MenuPage) (s : σ) (hp : p.data.isSome = false) :
    eachPageLoop f (MenuEntry.mk k t (some p) nested :: rest) prev prevSection s
      = eachPageLoop f rest prev prevSection
          (eachPageLoop f nested (some p) prev s).1 := by
  simp [eachPageLoop, hp]

theorem eachPageLoop_cons_nopage {σ : Type} (f : σ → MenuPage → Option MenuPage → σ)
    (k t : Option String) (nested rest : List MenuEntry)
    (prev prevSection : Option MenuPage) (s : σ) :
    eachPageLoop f (MenuEntry.mk k t none nested :: rest) prev prevSection s
      = eachPageLoop f rest prev prevSection
          (eachPageLoop f nested none prev s).1 := by
  simp [eachPageLoop]

theorem eachPageLoop_eq_foldl {σ : Type} (f : σ → MenuPage → Option MenuPage → σ) :
    ∀ menu : List MenuEntry, ∀ (prev prevSection : Option MenuPage) (s : σ),
      eachPageLoop f menu prev prevSection s =
        ((visitPairs menu prev).foldl (fun st q => f st q.1 q.2) s,
          prevAfter menu prev) := by
  refine menu_ind (fun menu => ∀ prev prevSection s,
    eachPageLoop f menu prev prevSection s =
      ((visitPairs menu prev).foldl (fun st q => f st q.1 q.2) s,
        prevAfter menu prev)) ?_ ?_
  · intro prev prevSection s
    rw [eachPageLoop_nil, visitPairs_nil]
    rfl
  · intro k t pg nested rest ihn ihr prev prevSection s
    cases pg with
    | some p =>
      cases hp : p.data.isSome with
      | true =>
        rw [eachPageLoop_cons_data f k t p nested rest prev prevSection s hp,
          visitPairs_cons_data k t p nested rest prev hp,
          pageProp_none, jsOrPage_none, ihn, ihr,
          List.foldl_cons, List.foldl_append]
        show _ = (_, prevAfter (MenuEntry.mk k t (some p) nested :: rest) prev)
        simp [prevAfter, hp]
      | false =>
        rw [eachPageLoop_cons_nodata f k t p nested rest prev prevSection s hp,
          visitPairs_cons_nodata k t p nested rest prev hp, ihn, ihr,
          List.foldl_append]
        show _ = (_, prevAfter (MenuEntry.mk k t (some p) nested :: rest) prev)
        simp [prevAfter, hp]
    | none =>
      rw [eachPageLoop_cons_nopage f k t nested rest prev prevSection s,
        visitPairs_cons_nopage k t nested rest prev, ihn, ihr,
        List.foldl_append]
      show _ = (_, prevAfter (MenuEntry.mk k t none nested :: rest) prev)
      simp [prevAfter]

theorem eachPage_eq_foldl {σ : Type} (f : σ → MenuPage → Option MenuPage → σ)
    (menu : List MenuEntry) (s : σ) :
    eachPage f menu s = (visitPairs menu none).foldl (fun st q => f st q.1 q.2) s := by
  rw [eachPage, eachPageLoop_eq_foldl]

theorem visitPairs_map_fst : ∀ (menu : List MenuEntry) (prev : Option MenuPage),
    (visitPairs menu prev).map Prod.fst = visitedPages menu := by
  refine menu_ind (fun menu => ∀ prev,
    (visitPairs menu prev).map Prod.fst = visitedPages menu) ?_ ?_
  · intro prev
    rw [visitPairs_nil, visitedPages_nil]
    rfl
  · intro k t pg nested rest ihn ihr prev
    cases pg with
    | some p =>
      cases hp : p.data.isSome with
      | true =>
        rw [visitPairs_cons_data k t p nested rest prev hp, visitedPages_cons]
        simp [hp, ihn, ihr]
      | false =>
        rw [visitPairs_cons_nodata k t p nested rest prev hp, visitedPages_cons]
        simp [hp, ihn, ihr]
    | none =>
      rw [visitPairs_cons_nopage k t nested rest prev, visitedPages_cons]
      simp [ihn, ihr]

theorem foldl_spn_nomatch (page : PageRecord) :
    ∀ pairs : List (MenuPage × Option MenuPage), (∀ q ∈ pairs, q.1.href ≠ page.href) →
      ∀ pg : PageRecord,
        pairs.foldl (fun st q => spnStep page st q.1 q.2) (pg, false) = (pg, false) := by
  intro pairs
  induction pairs with
  | nil =>
    intro _ pg
    rfl
  | cons q rest ih =>
    intro h pg
    rw [List.foldl_cons]
    have hq := h q (List.mem_cons_self q rest)
    have hstep : spnStep page (pg, false) q.1 q.2 = (pg, false) := by
      simp [spnStep, hq]
    rw [hstep]
    exact ih (fun x hx => h x (List.mem_cons_of_mem q hx)) pg

theorem foldl_spn_after (page : PageRecord) :
    ∀ pairs : List (MenuPage × Option MenuPage), (∀ q ∈ pairs, q.1.href ≠ page.href) →
      ∀ pg : PageRecord,
        (pairs.foldl (fun st q => spnStep page st q.1 q.2) (pg, true)).1 =
          (match pairs.head? with
           | some nx => { pg with next := some ⟨jsOrStr nx.1.menuTitle nx.1.title, nx.1.href⟩ }
           | none => pg) := by
  intro pairs
  cases pairs with
  | nil =>
    intro _ pg
    rfl
  | cons q rest =>
    intro h pg
    rw [List.foldl_cons]
    have hq := h q (List.mem_cons_self q rest)
    have hstep : spnStep page (pg, true) q.1 q.2
        = ({ pg with next := some ⟨jsOrStr q.1.menuTitle q.1.title, q.1.href⟩ }, false) := by
      simp [spnStep, hq]
    rw [hstep, foldl_spn_nomatch page rest (fun x hx => h x (List.mem_cons_of_mem q hx))]
    rfl

theorem setPrevNext_split_aux (page : PageRecord) (menu : List MenuEntry)
    (pre post : List (MenuPage × Option MenuPage)) (t : MenuPage) (pr : Option MenuPage)
    (hsplit : visitPairs menu none = pre ++ (t, pr) :: post)
    (hmatch : t.href = page.href)
    (hpre : ∀ q ∈ pre, q.1.href ≠ page.href)
    (hpost : ∀ q ∈ post, q.1.href ≠ page.href)
    (hp0 : page.prev = none) (hn0 : page.next = none) :
    (setPrevNext page menu).prev = prevLinkOf pr ∧
      (setPrevNext page menu).next = nextLinkOf post.head? := by
  have hfold0 : setPrevNext page menu =
      ((pre ++ (t, pr) :: post).foldl (fun st q => spnStep page st q.1 q.2) (page, false)).1 := by
    rw [setPrevNext, eachPage_eq_foldl, hsplit]
  rw [List.foldl_append, List.foldl_cons, foldl_spn_nomatch page pre hpre page] at hfold0
  cases pr with
  | none =>
    have hstep : spnStep page (page, false) t none = (page, true) := by
      simp [spnStep, hmatch]
    rw [hstep, foldl_spn_after page post hpost] at hfold0
    constructor
    · rw [hfold0]
      cases post.head? <;> simp [prevLinkOf, hp0]
    · rw [hfold0]
      cases post.head? <;> simp [nextLinkOf, hn0]
  | some q =>
    by_cases hq : titleTruthy q.title = true
    · have hstep : spnStep page (page, false) t (some q)
          = ({ page with prev := some ⟨jsOrStr q.menuTitle q.title, q.href⟩ }, true) := by
        simp [spnStep, hmatch, hq]
      rw [hstep, foldl_spn_after page post hpost] at hfold0
      constructor
      · rw [hfold0]
        cases post.head? <;> simp [prevLinkOf, hq]
      · rw [hfold0]
        cases post.head? <;> simp [nextLinkOf, hn0]
    · have hstep : spnStep page (page, false) t (some q) = (page, true) := by
        simp [spnStep, hmatch, hq]
      rw [hstep, foldl_spn_after page post hpost] at hfold0
      constructor
      · rw [hfold0]
        cases post.head? <;> simp [prevLinkOf, hq, hp0]
      · rw [hfold0]
        cases post.head? <;> simp [nextLinkOf, hn0]

theorem wfEntries_cons_some (k t : Option String) (p : MenuPage)
    (nested rest : List MenuEntry) :
    wfEntries (MenuEntry.mk k t (some p) nested :: rest)
      = ((p.data.isSome || nested.isEmpty) && wfEntries nested && wfEntries rest) := by
  rw [wfEntries.eq_def]

theorem wfEntries_cons_none (k t : Option String) (nested rest : List MenuEntry) :
    wfEntries (MenuEntry.mk k t none nested :: rest)
      = (wfEntries nested && wfEntries rest) := by
  rw [wfEntries.eq_def]
  simp

theorem visitPairs_head_anchor :
    ∀ menu : List MenuEntry, wfEntries menu = true →
      ∀ prev t pr rest, visitPairs menu prev = (t, pr) :: rest →
        pr = prev ∨ pr = none := by
  refine menu_ind (fun menu => wfEntries menu = true →
    ∀ prev t pr rest, visitPairs menu prev = (t, pr) :: rest →
      pr = prev ∨ pr = none) ?_ ?_
  · intro _ prev t pr rest h
    rw [visitPairs_nil] at h
    cases h
  · intro k ttl pg nested rest' ihn ihr hwf prev t pr rest h
    cases pg with
    | some p =>
      rw [wfEntries_cons_some] at hwf
      simp only [Bool.and_eq_true] at hwf
      obtain ⟨⟨hcond, hwfn⟩, hwfr⟩ := hwf
      cases hp : p.data.isSome with
      | true =>
        rw [visitPairs_cons_data k ttl p nested rest' prev hp] at h
        injection h with h1 _
        injection h1 with _ h2
        exact Or.inl h2.symm
      | false =>
        have hnested : nested = [] := by
          rw [hp] at hcond
          simpa [List.isEmpty_iff] using hcond
        subst hnested
        rw [visitPairs_cons_nodata k ttl p [] rest' prev hp, visitPairs_nil,
          List.nil_append] at h
        exact ihr hwfr prev t pr rest h
    | none =>
      rw [wfEntries_cons_none] at hwf
      simp only [Bool.and_eq_true] at hwf
      obtain ⟨hwfn, hwfr⟩ := hwf
      rw [visitPairs_cons_nopage k ttl nested rest' prev] at h
      cases hvn : visitPairs nested none with
      | nil =>
        rw [hvn, List.nil_append] at h
        exact ihr hwfr prev t pr rest h
      | cons q0 rest0 =>
        rw [hvn, List.cons_append] at h
        injection h with h1 _
        rcases ihn hwfn none q0.1 q0.2 rest0 (by rw [hvn]) with h2 | h2 <;>
          · right
            rw [h1] at h2
            exact h2

theorem visitPairs_anchor_data :
    ∀ menu : List MenuEntry, wfEntries menu = true →
      ∀ prev : Option MenuPage, (∀ q0, prev = some q0 → q0.data.isSome = true) →
        ∀ p pr, (p, pr) ∈ visitPairs menu prev →
          ∀ q, pr = some q → q.data.isSome = true := by
  refine menu_ind (fun menu => wfEntries menu = true →
    ∀ prev : Option MenuPage, (∀ q0, prev = some q0 → q0.data.isSome = true) →
      ∀ p pr, (p, pr) ∈ visitPairs menu prev →
        ∀ q, pr = some q → q.data.isSome = true) ?_ ?_
  · intro _ prev _ p pr hmem
    rw [visitPairs_nil] at hmem
    cases hmem
  · intro k ttl pg nested rest ihn ihr hwf prev hprev p pr hmem q hq
    cases pg with
    | some p0 =>
      rw [wfEntries_cons_some] at hwf
      simp only [Bool.and_eq_true] at hwf
      obtain ⟨⟨hcond, hwfn⟩, hwfr⟩ := hwf
      cases hp : p0.data.isSome with
      | true =>
        rw [visitPairs_cons_data k ttl p0 nested rest prev hp] at hmem
        rcases List.mem_cons.mp hmem with heq | hmem'
        · injection heq with _ h2
          subst h2
          exact hprev q hq
        · rcases List.mem_append.mp hmem' with hmem2 | hmem2
          · exact ihn hwfn (some p0) (fun q0 hq0 => by cases hq0; exact hp)
              p pr hmem2 q hq
          · exact ihr hwfr (some p0) (fun q0 hq0 => by cases hq0; exact hp)
              p pr hmem2 q hq
      | false =>
        have hnested : nested = [] := by
          rw [hp] at hcond
          simpa [List.isEmpty_iff] using hcond
        subst hnested
        rw [visitPairs_cons_nodata k ttl p0 [] rest prev hp, visitPairs_nil,
          List.nil_append] at hmem
        exact ihr hwfr prev hprev p pr hmem q hq
    | none =>
      rw [wfEntries_cons_none] at hwf
      simp only [Bool.and_eq_true] at hwf
      obtain ⟨hwfn, hwfr⟩ := hwf
      rw [visitPairs_cons_nopage k ttl nested rest prev] at hmem
      rcases List.mem_append.mp hmem with hmem2 | hmem2
      · exact ihn hwfn none (fun q0 hq0 => by cases hq0) p pr hmem2 q hq
      · exact ihr hwfr prev hprev p pr hmem2 q hq

theorem visitedPages_data :
    ∀ menu : List MenuEntry, ∀ p ∈ visitedPages menu, p.data.isSome = true := by
  refine menu_ind (fun menu => ∀ p ∈ visitedPages menu, p.data.isSome = true) ?_ ?_
  · intro p hp
    rw [visitedPages_nil] at hp
    cases hp
  · intro k t pg nested rest ihn ihr p hp
    rw [visitedPages_cons] at hp
    rcases List.mem_append.mp hp with hp2 | hp2
    · rcases List.mem_append.mp hp2 with hp3 | hp3
      · cases pg with
        | some p0 =>
          cases hd : p0.data.isSome with
          | true =>
            simp only [hd, if_true] at hp3
            rcases List.mem_singleton.mp hp3 with rfl
            exact hd
          | false =>
            simp only [hd] at hp3
            simp at hp3
        | none =>
          simp at hp3
      · exact ihn p hp3
    · exact ihr p hp2

theorem wfEntries_nil : wfEntries [] = true := by
  rw [wfEntries.eq_def]

theorem visitPairs_treeDemo :
    visitPairs treeDemo none =
      [(mpA, none), (mpB, some mpA), (mpC, some mpB), (mpD, some mpC), (mpE, some mpB)] := by
  simp only [treeDemo, entriesDemo, visitPairs_cons_nopage, visitPairs_cons_data,
    visitPairs_nil, List.append_nil, List.nil_append, List.cons_append,
    mpA, mpB, mpC, mpD, mpE, fmOf, Option.isSome_some]

theorem wfEntries_treeDemo : wfEntries treeDemo = true := by
  simp only [treeDemo, entriesDemo, wfEntries_cons_some, wfEntries_cons_none, wfEntries_nil,
    mpA, mpB, mpC, mpD, mpE, fmOf, Option.isSome_some, Bool.true_or, Bool.true_and,
    Bool.and_true, Bool.and_self]

/-- C1 amended: setPrevNext visits the data-carrying pages of a normalized
tree in depth-first declaration order (a parent page before its nested
children), but the previous-page cursor is maintained per nesting level
rather than across the whole traversal: descending into children seeds the
child level's cursor with the parent entry's page and returning restores the
outer level's cursor.  The target's prev link is the cursor value at the
match — its nearest preceding data-carrying page at its own level, or its
parent entry's page when it is first at its level — provided that cursor
page has a truthy title; the next link goes to the first page visited after
the match in the flat depth-first order (so in a linear menu [A, B, C]
target B still gets prev.href A and next.href C, but a page that follows a
nested section gets the section's index page as prev rather than the
section's last descendant). -/
theorem setPrevNext_links (page : PageRecord) (menu : List MenuEntry)
    (pre post : List (MenuPage × Option MenuPage)) (t : MenuPage) (pr : Option MenuPage)
    (hsplit : visitPairs menu none = pre ++ (t, pr) :: post)
    (hmatch : t.href = page.href)
    (hpre : ∀ q ∈ pre, q.1.href ≠ page.href)
    (hpost : ∀ q ∈ post, q.1.href ≠ page.href)
    (hp0 : page.prev = none) (hn0 : page.next = none) :
    (visitPairs menu none).map Prod.fst = visitedPages menu ∧
      (setPrevNext page menu).prev = prevLinkOf pr ∧
      (setPrevNext page menu).next = nextLinkOf post.head? :=
  ⟨visitPairs_map_fst menu none,
    (setPrevNext_split_aux page menu pre post t pr hsplit hmatch hpre hpost hp0 hn0).1,
    (setPrevNext_split_aux page menu pre post t pr hsplit hmatch hpre hpost hp0 hn0).2⟩

/-- Counterexample for C1 as stated: in the normalized tree r = [a, b[c, d],
e] the page visited immediately before e is d, yet e's prev link points at
b — the cursor is per level, not a single cursor across the whole
traversal. -/
theorem setPrevNext_cursor_counterexample :
    normalize fsDemo menuDemo "r" = Except.ok entriesDemo ∧
      visitedPages treeDemo = [mpA, mpB, mpC, mpD, mpE] ∧
      loadPage fsDemo "r/e" = Except.ok pageEDemo ∧
      (setPrevNext pageEDemo treeDemo).prev = some ⟨some "B", "/r/b"⟩ ∧
      mpD.href = "/r/b/d" ∧ ("/r/b" : String) ≠ "/r/b/d" := by
  refine ⟨by rfl, ?_, by rfl, ?_, by rfl, by decide⟩
  · rw [← visitPairs_map_fst treeDemo none, visitPairs_treeDemo]
    rfl
  · have h := setPrevNext_split_aux pageEDemo treeDemo
      [(mpA, none), (mpB, some mpA), (mpC, some mpB), (mpD, some mpC)] [] mpE (some mpB)
      (by rw [visitPairs_treeDemo]; simp) (by rfl) (by decide) (by decide) (by rfl) (by rfl)
    rw [h.1]
    rfl

/-- Witness for the amended C1 at the demo tree with target r/b/c: its prev
is the parent section page b and its next is the page visited right after
it, d. -/
theorem setPrevNext_links_witness :
    (visitPairs treeDemo none).map Prod.fst = visitedPages treeDemo ∧
      (setPrevNext pageCDemo treeDemo).prev = some ⟨some "B", "/r/b"⟩ ∧
      (setPrevNext pageCDemo treeDemo).next = some ⟨some "D", "/r/b/d"⟩ := by
  have h := setPrevNext_links pageCDemo treeDemo [(mpA, none), (mpB, some mpA)]
    [(mpD, some mpC), (mpE, some mpB)] mpC (some mpB)
    (by rw [visitPairs_treeDemo]; simp) (by rfl) (by decide) (by decide) (by rfl) (by rfl)
  refine ⟨h.1, ?_, ?_⟩
  · rw [h.2.1]
    rfl
  · rw [h.2.2]
    rfl

/-- C5: over a well-formed (normalized) tree: a target that is first in
traversal gets no prev link; a target that is last gets no next link; a page
without front-matter data is never visited and never serves as a prev
anchor; and a target whose href matches no visited page is returned
unchanged, without prev or next. -/
theorem setPrevNext_edge_cases (page : PageRecord) (menu : List MenuEntry)
    (hwf : wfEntries menu = true) (hp0 : page.prev = none) (hn0 : page.next = none) :
    (∀ t pr rest, visitPairs menu none = (t, pr) :: rest → t.href = page.href →
        (∀ q ∈ rest, q.1.href ≠ page.href) → (setPrevNext page menu).prev = none) ∧
      (∀ pre t pr, visitPairs menu none = pre ++ [(t, pr)] → t.href = page.href →
        (∀ q ∈ pre, q.1.href ≠ page.href) → (setPrevNext page menu).next = none) ∧
      (∀ p ∈ visitedPages menu, p.data.isSome = true) ∧
      (∀ p pr, (p, pr) ∈ visitPairs menu none → ∀ q, pr = some q → q.data.isSome = true) ∧
      ((∀ q ∈ visitPairs menu none, q.1.href ≠ page.href) → setPrevNext page menu = page) := by
  refine ⟨?_, ?_, visitedPages_data menu, ?_, ?_⟩
  · intro t pr rest hsplit hmatch hrest
    have hpr : pr = none := by
      rcases visitPairs_head_anchor menu hwf none t pr rest hsplit with h | h
      exacts [h, h]
    subst hpr
    have h := setPrevNext_split_aux page menu [] rest t none (by simpa using hsplit)
      hmatch (by intro q hq; cases hq) hrest hp0 hn0
    rw [h.1]
    rfl
  · intro pre t pr hsplit hmatch hpre
    have h := setPrevNext_split_aux page menu pre [] t pr (by simpa using hsplit)
      hmatch hpre (by intro q hq; cases hq) hp0 hn0
    rw [h.2]
    rfl
  · intro p pr hmem q hq
    exact visitPairs_anchor_data menu hwf none (fun q0 hq0 => by cases hq0) p pr hmem q hq
  · intro hno
    rw [setPrevNext, eachPage_eq_foldl, foldl_spn_nomatch page _ hno page]

/-- Witness for C5 on the demo tree: the first page gets no prev, the last
page gets no next, and an unmatched target comes back unchanged. -/
theorem setPrevNext_edge_cases_witness :
    wfEntries treeDemo = true ∧
      (setPrevNext pageADemo treeDemo).prev = none ∧
      (setPrevNext pageEDemo treeDemo).next = none ∧
      setPrevNext ghostDemo treeDemo = ghostDemo := by
  refine ⟨wfEntries_treeDemo, ?_, ?_, ?_⟩
  · exact (setPrevNext_edge_cases pageADemo treeDemo wfEntries_treeDemo rfl rfl).1 mpA none
      [(mpB, some mpA), (mpC, some mpB), (mpD, some mpC), (mpE, some mpB)]
      (by rw [visitPairs_treeDemo]) (by rfl) (by decide)
  · exact (setPrevNext_edge_cases pageEDemo treeDemo wfEntries_treeDemo rfl rfl).2.1
      [(mpA, none), (mpB, some mpA), (mpC, some mpB), (mpD, some mpC)] mpE (some mpB)
      (by rw [visitPairs_treeDemo]; simp) (by rfl) (by decide)
  · exact (setPrevNext_edge_cases ghostDemo treeDemo wfEntries_treeDemo rfl rfl).2.2.2.2
      (by rw [visitPairs_treeDemo]; decide)

/-! ## Date-ordered collections and app props -/

theorem getDateOrderedPaths_elim (fs : FS) (root : String) (l : List DatedPage)
    (h : getDateOrderedPaths fs root = Except.ok l) :
    l.Pairwise (fun a b => b.date ≤ a.date) ∧
      ∃ base, (globMd fs root).mapM (loadDated fs) = Except.ok base ∧ l.Perm base := by
  simp only [getDateOrderedPaths] at h
  obtain ⟨base, hbase, hp⟩ := ebind_ok h
  have hl : base.mergeSort (fun a b => decide (b.date ≤ a.date)) = l := by
    simpa [pure, Except.pure] using hp
  subst hl
  refine ⟨?_, base, hbase, List.mergeSort_perm base _⟩
  have hs := @List.sorted_mergeSort DatedPage (fun a b => decide (b.date ≤ a.date))
    (by intro a b c hab hbc; simp only [decide_eq_true_eq] at *; omega)
    (by intro a b; simp only [Bool.or_eq_true, decide_eq_true_eq]; omega) base
  exact hs.imp (fun hx => by simpa using hx)

theorem dopDemo_eval : getDateOrderedPaths fsDemo "blog" = Except.ok dopDemo := by
  have hbase : (globMd fsDemo "blog").mapM (loadDated fsDemo) =
      Except.ok [dpP1, dpP2, dpP3] := by rfl
  have hms : List.mergeSort [dpP1, dpP2, dpP3] (fun a b => decide (b.date ≤ a.date)) =
      dopDemo := by
    simp [List.mergeSort, dpP1, dpP2, dpP3, dopDemo, List.merge]
  simp only [getDateOrderedPaths, hbase]
  simp only [Bind.bind, Except.bind, pure, Except.pure]
  exact congrArg Except.ok hms

theorem withAppProps_empty (fs : FS) (props : PropsObj) (hglob : globMd fs "blog" = []) :
    withAppProps fs props = Except.error undefinedDeleteMsg := by
  have hnil : List.mapM (loadDated fs) ([] : List String) = Except.ok ([] : List DatedPage) := by
    rfl
  have hdop : getDateOrderedPaths fs "blog" = Except.ok [] := by
    simp only [getDateOrderedPaths, hglob, hnil]
    simp only [Bind.bind, Except.bind, List.mergeSort_nil, pure, Except.pure]
  simp only [withAppProps, getLastBlog, hdop]
  simp only [Bind.bind, Except.bind, pure, Except.pure, List.head?]

/-- C9: whenever getDateOrderedPaths succeeds, its result is a permutation
of the pages loaded from the collection glob, sorted in descending order of
their parsed front-matter date (every page's date is at least every later
page's date); the relative order among equal dates is whatever the stable
sort leaves of the glob enumeration order, which is unspecified and treated
as arbitrary. -/
theorem getDateOrderedPaths_sorted_desc (fs : FS) (root : String) (l : List DatedPage)
    (h : getDateOrderedPaths fs root = Except.ok l) :
    l.Pairwise (fun a b => b.date ≤ a.date) ∧
      ∃ base, (globMd fs root).mapM (loadDated fs) = Except.ok base ∧ l.Perm base :=
  getDateOrderedPaths_elim fs root l h

/-- Witness for C9: the demo blog pages carry dates 2023-01-01, 2024-06-15
and 2022-12-31, and come back ordered 2024-06-15, 2023-01-01, 2022-12-31. -/
theorem getDateOrderedPaths_sorted_desc_witness :
    getDateOrderedPaths fsDemo "blog" = Except.ok dopDemo ∧
      dopDemo.map DatedPage.date = [1718409600000, 1672531200000, 1672444800000] ∧
      dopDemo.Pairwise (fun a b => b.date ≤ a.date) ∧
      (∃ base, (globMd fsDemo "blog").mapM (loadDated fsDemo) = Except.ok base ∧
        dopDemo.Perm base) :=
  ⟨dopDemo_eval, by rfl,
    (getDateOrderedPaths_sorted_desc fsDemo "blog" dopDemo dopDemo_eval).1,
    (getDateOrderedPaths_sorted_desc fsDemo "blog" dopDemo dopDemo_eval).2⟩

/-- C10: when the blog collection is empty, getLastBlog has nothing to
return and withAppProps fails at the delete of the undefined blog's body —
so getProps, which ends every successful request with withAppProps, fails as
well; when the collection is non-empty, withAppProps succeeds and installs
as app.blog the head of the date-ordered collection — a page whose parsed
date is maximal — with its body field removed. -/
theorem withAppProps_blog (props : PropsObj) :
    (∀ fs : FS, globMd fs "blog" = [] →
        withAppProps fs props = Except.error undefinedDeleteMsg ∧
        ∀ toHTML menu slugParts, (getProps toHTML fs menu slugParts).isOk = false) ∧
      (∀ (fs : FS) (d : DatedPage) (rest : List DatedPage),
        getDateOrderedPaths fs "blog" = Except.ok (d :: rest) →
        withAppProps fs props =
          Except.ok { props with app := some { blog := stripBody d } } ∧
        ∀ e ∈ rest, e.date ≤ d.date) := by
  constructor
  · intro fs hglob
    refine ⟨withAppProps_empty fs props hglob, ?_⟩
    intro toHTML menu slugParts
    simp only [getProps]
    apply ebind_isOk_false
    intro page
    cases List.lookup ((strSplitSlash (String.intercalate "/" slugParts)).headD "") menu with
    | none => rfl
    | some v =>
      dsimp only
      cases v with
      | link href title => rfl
      | leaf t => rfl
      | sec t ks =>
        apply ebind_isOk_false
        intro sub
        rw [withAppProps_empty fs _ hglob]
        rfl
      | group t m =>
        apply ebind_isOk_false
        intro sub
        rw [withAppProps_empty fs _ hglob]
        rfl
  · intro fs d rest h
    have hlast : getLastBlog fs = Except.ok (some d) := by
      simp only [getLastBlog, h]
      simp only [Bind.bind, Except.bind, pure, Except.pure, List.head?]
    refine ⟨?_, ?_⟩
    · simp only [withAppProps, hlast]
      simp only [Bind.bind, Except.bind, pure, Except.pure]
    · have hp := (getDateOrderedPaths_elim fs "blog" (d :: rest) h).1
      intro e he
      exact (List.pairwise_cons.mp hp).1 e he

/-- Witness for C10: on the empty filesystem withAppProps raises the delete
TypeError and getProps fails, while on the demo filesystem withAppProps
installs blog/p2 — the latest-dated post — without its body. -/
theorem withAppProps_blog_witness :
    withAppProps ([] : FS) propsDemo = Except.error undefinedDeleteMsg ∧
      (getProps (fun s => s) ([] : FS) smDemo ["tokio"]).isOk = false ∧
      withAppProps fsDemo propsDemo =
        Except.ok { propsDemo with app := some { blog := stripBody dpP2 } } ∧
      ∀ e ∈ [dpP1, dpP3], e.date ≤ dpP2.date := by
  have h1 := (withAppProps_blog propsDemo).1 ([] : FS) (by rfl)
  have h2 := (withAppProps_blog propsDemo).2 fsDemo dpP2 [dpP1, dpP3] dopDemo_eval
  exact ⟨h1.1, h1.2 (fun s => s) smDemo ["tokio"], h2.1, h2.2⟩

end Site
